import Mathlib

/-!
Verification of the ontology-based persona prompt builder (`src/app.py`).

The file shallowly embeds the pure core of the program:
the Notion-row aggregation (`df.groupby` at app.py:351), the safe JSON
extractor (`parse_json_safely`, app.py:112-125), the streaming completion
sink (`stream_generate_text`, app.py:160-181), the final prompt builder
(`build_final_prompt`, app.py:186-232), the 3-D ontology graph builder
(`plot_ontology_3d`, app.py:237-277) and the per-person analysis flow with
its session cache (`analyze_and_render_streaming`, app.py:282-328, and the
button handler, app.py:370-402).

Machine-level conventions: Python strings are Lean `String`s; Python dicts
that carry JSON data are the inductive `JValue`; absent dictionary keys are
`Option`; the external completion service is modelled by the list of text
fragments it yields plus a flag saying whether it raised mid-stream; the
external spring-layout routine is a parameter function of the node list,
edge list and seed, reflecting that with a fixed seed it is a pure function
of the topology.
-/

namespace App

/-- The backtick character (spelled via its code point). -/
def tk : Char := Char.ofNat 96

/-- The opening curly brace character. -/
def lbrace : Char := Char.ofNat 123

/-- The closing curly brace character. -/
def rbrace : Char := Char.ofNat 125

/-- Opening brace as a one-character string, for building test inputs. -/
def lbS : String := String.singleton lbrace

/-- Closing brace as a one-character string, for building test inputs. -/
def rbS : String := String.singleton rbrace

/-- JSON whitespace, as consumed by Python's `json.loads` between tokens. -/
def jws (c : Char) : Bool :=
  c = ' ' || c = '\t' || c = '\n' || c = '\r'

/-- Whitespace stripped by Python's `str.strip()` (ASCII portion: space,
tab, newline, carriage return, vertical tab, form feed). -/
def pws (c : Char) : Bool :=
  c = ' ' || c = '\t' || c = '\n' || c = '\r' || c = Char.ofNat 11 || c = Char.ofNat 12

/-- Drop leading JSON whitespace. -/
def skipWs (cs : List Char) : List Char := cs.dropWhile jws

/-- Strip characters satisfying `p` from both ends of a char list. -/
def stripBoth (p : Char → Bool) (cs : List Char) : List Char :=
  (((cs.dropWhile p).reverse).dropWhile p).reverse

/-- Strip JSON whitespace from both ends. -/
def jstrip (cs : List Char) : List Char := stripBoth jws cs

/-- Strip Python `str.strip()` whitespace from both ends of a char list. -/
def pyStrip (cs : List Char) : List Char := stripBoth pws cs

/-- Python `text.strip()` on a `String`. -/
def pstrip (s : String) : String := String.mk (pyStrip s.data)

/-- A parsed JSON value, as produced by Python's `json.loads`.  Numbers keep
their source spelling (the program never computes with them); objects keep
Python `dict` semantics: first-insertion position, last-written value. -/
inductive JValue where
  | null : JValue
  | bool : Bool → JValue
  | num : String → JValue
  | str : String → JValue
  | arr : List JValue → JValue
  | obj : List (String × JValue) → JValue

/-- Lookup in a parsed object, mirroring `dict.__getitem__` presence. -/
def lookupKV (kvs : List (String × JValue)) (k : String) : Option JValue :=
  match kvs with
  | [] => none
  | (k₂, v) :: rest => if k = k₂ then some v else lookupKV rest k

/-- Remove the (single) binding of a key from a parsed object. -/
def eraseKV (kvs : List (String × JValue)) (k : String) : List (String × JValue) :=
  match kvs with
  | [] => []
  | (k₂, v) :: rest => if k = k₂ then rest else (k₂, v) :: eraseKV rest k

/-- Insert a key parsed *before* the bindings in `kvs`, with Python `dict`
duplicate-key semantics: the earliest occurrence fixes the position, the
latest occurrence fixes the value. -/
def dictCons (k : String) (v : JValue) (kvs : List (String × JValue)) :
    List (String × JValue) :=
  match lookupKV kvs k with
  | some v₂ => (k, v₂) :: eraseKV kvs k
  | none => (k, v) :: kvs

/-- One escape character after a backslash in a JSON string. -/
def escChar (c : Char) : Option Char :=
  if c = '"' then some '"'
  else if c = '\\' then some '\\'
  else if c = '/' then some '/'
  else if c = 'b' then some (Char.ofNat 8)
  else if c = 'f' then some (Char.ofNat 12)
  else if c = 'n' then some '\n'
  else if c = 'r' then some '\r'
  else if c = 't' then some '\t'
  else none

/-- Hexadecimal digit value, if any. -/
def hexVal (c : Char) : Option Nat :=
  if '0' ≤ c ∧ c ≤ '9' then some (c.toNat - 48)
  else if 'a' ≤ c ∧ c ≤ 'f' then some (c.toNat - 87)
  else if 'A' ≤ c ∧ c ≤ 'F' then some (c.toNat - 70)
  else none

/-- Body of a JSON string after the opening quote: content characters and
the remainder after the closing quote.  Follows `json.loads` in strict
mode: raw control characters are rejected, the eight standard escapes and
`\uXXXX` are decoded.  (Python additionally pairs UTF-16 surrogates and
keeps lone surrogates; `Char.ofNat` maps a lone surrogate to `\0`, a value
difference on inputs no claim exercises.) -/
def parseStringBody : List Char → Option (List Char × List Char)
  | [] => none
  | c :: rest =>
    if c = '"' then some ([], rest)
    else if c = '\\' then
      match rest with
      | [] => none
      | e :: rest₂ =>
        if e = 'u' then
          match rest₂ with
          | a :: b :: c₃ :: d :: rest₃ =>
            match hexVal a, hexVal b, hexVal c₃, hexVal d with
            | some ha, some hb, some hc, some hd =>
              match parseStringBody rest₃ with
              | some (content, rs) =>
                some (Char.ofNat (ha * 4096 + hb * 256 + hc * 16 + hd) :: content, rs)
              | none => none
            | _, _, _, _ => none
          | _ => none
        else
          match escChar e with
          | some ch =>
            match parseStringBody rest₂ with
            | some (content, rs) => some (ch :: content, rs)
            | none => none
          | none => none
    else if c.toNat < 32 then none
    else
      match parseStringBody rest with
      | some (content, rs) => some (c :: content, rs)
      | none => none

/-- Optional fraction part of a JSON number (`.digits`), returning the
consumed characters and the remainder.  A bare dot is not consumed,
matching the `(\.\d+)?` group of Python's number grammar. -/
def fracPart (cs : List Char) : List Char × List Char :=
  match cs with
  | '.' :: r =>
    let ds := r.takeWhile Char.isDigit
    if ds.isEmpty then ([], cs) else ('.' :: ds, r.dropWhile Char.isDigit)
  | _ => ([], cs)

/-- Optional exponent part of a JSON number (`[eE][+-]?digits`). -/
def expPart (cs : List Char) : List Char × List Char :=
  match cs with
  | e :: r =>
    if e = 'e' ∨ e = 'E' then
      match r with
      | s :: r₂ =>
        if s = '+' ∨ s = '-' then
          let ds := r₂.takeWhile Char.isDigit
          if ds.isEmpty then ([], cs) else (e :: s :: ds, r₂.dropWhile Char.isDigit)
        else
          let ds := r.takeWhile Char.isDigit
          if ds.isEmpty then ([], cs) else (e :: ds, r.dropWhile Char.isDigit)
      | [] => ([], cs)
    else ([], cs)
  | [] => ([], cs)

/-- Integer part of a JSON number after the optional sign: `0` or a
nonzero digit followed by digits (`(?:0|[1-9]\d*)`). -/
def intPart (cs : List Char) : Option (List Char × List Char) :=
  match cs with
  | '0' :: r => some (['0'], r)
  | c :: r =>
    if c.isDigit then some (c :: r.takeWhile Char.isDigit, r.dropWhile Char.isDigit)
    else none
  | [] => none

/-- A JSON number token at the head of the input, per the grammar Python's
scanner uses: `-?(?:0|[1-9]\d*)(\.\d+)?([eE][-+]?\d+)?`.  The spelling is
kept as the value. -/
def parseNumber (cs : List Char) : Option (JValue × List Char) :=
  match cs with
  | '-' :: r =>
    match intPart r with
    | some (ip, r₁) =>
      let fr := fracPart r₁
      let ex := expPart fr.2
      some (JValue.num (String.mk ('-' :: ip ++ fr.1 ++ ex.1)), ex.2)
    | none => none
  | _ =>
    match intPart cs with
    | some (ip, r₁) =>
      let fr := fracPart r₁
      let ex := expPart fr.2
      some (JValue.num (String.mk (ip ++ fr.1 ++ ex.1)), ex.2)
    | none => none

/-- Request selector for the single fueled JSON parsing function. -/
inductive PReq where
  | val : PReq
  | members : PReq
  | pairs : PReq
  | items : PReq
  | elems : PReq

/-- Result of one parsing request. -/
inductive PRes where
  | v : JValue → PRes
  | kvs : List (String × JValue) → PRes
  | vs : List JValue → PRes

/-- The literal `true`. -/
def litT : List Char := "true".data

/-- The literal `false`. -/
def litF : List Char := "false".data

/-- The literal `null`. -/
def litN : List Char := "null".data

/-- The literal `NaN` (accepted by `json.loads` by default). -/
def litNaN : List Char := "NaN".data

/-- The literal `Infinity` (accepted by `json.loads` by default). -/
def litInf : List Char := "Infinity".data

/-- The literal `-Infinity` (accepted by `json.loads` by default). -/
def litNInf : List Char := "-Infinity".data

/-- The recursive JSON parser of `json.loads`, written as one function over
a fuel argument so that every request is structural and the kernel can
evaluate it.  `val` parses a value whose first character is at the head
(callers have skipped whitespace); `members` parses an object body after
`\x7b`; `pairs` parses a nonempty member list positioned at a key quote;
`items` parses an array body after `[`; `elems` parses a nonempty element
list positioned at a value. -/
def parseP : Nat → PReq → List Char → Option (PRes × List Char)
  | 0, _, _ => none
  | Nat.succ f, PReq.val, cs =>
    match cs with
    | [] => none
    | c :: rest =>
      if c = lbrace then
        match parseP f PReq.members rest with
        | some (PRes.kvs l, rs) => some (PRes.v (JValue.obj l), rs)
        | _ => none
      else if c = '[' then
        match parseP f PReq.items rest with
        | some (PRes.vs l, rs) => some (PRes.v (JValue.arr l), rs)
        | _ => none
      else if c = '"' then
        match parseStringBody rest with
        | some (content, rs) => some (PRes.v (JValue.str (String.mk content)), rs)
        | none => none
      else if litT.isPrefixOf cs then some (PRes.v (JValue.bool true), cs.drop 4)
      else if litF.isPrefixOf cs then some (PRes.v (JValue.bool false), cs.drop 5)
      else if litN.isPrefixOf cs then some (PRes.v JValue.null, cs.drop 4)
      else if litNaN.isPrefixOf cs then some (PRes.v (JValue.num "NaN"), cs.drop 3)
      else if litInf.isPrefixOf cs then some (PRes.v (JValue.num "Infinity"), cs.drop 8)
      else if litNInf.isPrefixOf cs then some (PRes.v (JValue.num "-Infinity"), cs.drop 9)
      else
        match parseNumber cs with
        | some (v, rs) => some (PRes.v v, rs)
        | none => none
  | Nat.succ f, PReq.members, cs =>
    match skipWs cs with
    | c :: rest =>
      if c = rbrace then some (PRes.kvs [], rest)
      else parseP f PReq.pairs (c :: rest)
    | [] => none
  | Nat.succ f, PReq.pairs, cs =>
    match cs with
    | c :: rest =>
      if c = '"' then
        match parseStringBody rest with
        | some (key, r₁) =>
          match skipWs r₁ with
          | ':' :: r₂ =>
            match parseP f PReq.val (skipWs r₂) with
            | some (PRes.v v, r₃) =>
              match skipWs r₃ with
              | c₄ :: r₄ =>
                if c₄ = ',' then
                  match parseP f PReq.pairs (skipWs r₄) with
                  | some (PRes.kvs l, r₅) =>
                    some (PRes.kvs (dictCons (String.mk key) v l), r₅)
                  | _ => none
                else if c₄ = rbrace then some (PRes.kvs [(String.mk key, v)], r₄)
                else none
              | [] => none
            | _ => none
          | _ => none
        | none => none
      else none
    | [] => none
  | Nat.succ f, PReq.items, cs =>
    match skipWs cs with
    | c :: rest =>
      if c = ']' then some (PRes.vs [], rest)
      else parseP f PReq.elems (c :: rest)
    | [] => none
  | Nat.succ f, PReq.elems, cs =>
    match parseP f PReq.val cs with
    | some (PRes.v v, r₁) =>
      match skipWs r₁ with
      | ',' :: r₂ =>
        match parseP f PReq.elems (skipWs r₂) with
        | some (PRes.vs l, r₃) => some (PRes.vs (v :: l), r₃)
        | _ => none
      | ']' :: r₂ => some (PRes.vs [v], r₂)
      | _ => none
    | _ => none

/-- Fuel that certainly suffices: nesting alternates at most two fueled
requests per consumed character. -/
def fuelOf (cs : List Char) : Nat := 2 * cs.length + 4

/-- Parse a char list as exactly one JSON value with nothing after it. -/
def parseExact (cs : List Char) : Option JValue :=
  match parseP (fuelOf cs) PReq.val cs with
  | some (PRes.v v, []) => some v
  | _ => none

/-- Python's `json.loads` on a string: surrounding whitespace is ignored
and the value must span the rest.  (Stated as strip-both-ends followed by
an exact parse, which is the same acceptance behaviour.) -/
def json_loads (s : String) : Option JValue :=
  parseExact (jstrip s.data)

/-- Three consecutive backticks. -/
def tick3 : List Char := [tk, tk, tk]

/-- The literal `\x60\x60\x60json` opening a tagged fence. -/
def fenceTag : List Char := tick3 ++ "json".data

/-- Split at the first occurrence of three consecutive backticks: the part
before and the part after.  This is the lazy `(.*?)` closing of the fence
regex. -/
def findClose : List Char → Option (List Char × List Char)
  | [] => none
  | c :: rest =>
    if (c :: rest).take 3 = tick3 then some ([], rest.drop 2)
    else
      match findClose rest with
      | some (a, b) => some (c :: a, b)
      | none => none

/-- Leftmost match of the regex `\x60\x60\x60json(.*?)\x60\x60\x60` with
`re.S`: at each start position try the literal tag, then the shortest
interior closed by three backticks; the first position with a complete
match wins, exactly as `re.search` does. -/
def fenceSearch : List Char → Option (List Char)
  | [] => none
  | c :: rest =>
    if fenceTag.isPrefixOf (c :: rest) then
      match findClose ((c :: rest).drop 7) with
      | some (interior, _) => some interior
      | none => fenceSearch rest
    else fenceSearch rest

/-- The match of the regex `\\\x7b.*\\\x7d` with `re.S`: the greedy span
from the first opening brace to the last closing brace, when the latter
comes after the former. -/
def braceSpan (cs : List Char) : Option (List Char) :=
  let rest := cs.dropWhile (fun c => c ≠ lbrace)
  let sp := ((rest.reverse.dropWhile (fun c => c ≠ rbrace))).reverse
  if sp.isEmpty then none else some sp

/-- The first narrowing stage of `parse_json_safely` (app.py:116-118): when
the `json` fence regex matches, the text becomes the stripped interior of
the fence, else it is unchanged. -/
def fenceNarrowed (s : String) : List Char :=
  match fenceSearch s.data with
  | some interior => pyStrip interior
  | none => s.data

/-- The second narrowing stage (app.py:119-121): when the greedy brace-span
regex matches the narrowed text, the text becomes the span, else it is
unchanged.  This is the candidate handed to the strict parser. -/
def extractCandidate (s : String) : List Char :=
  match braceSpan (fenceNarrowed s) with
  | some sp => sp
  | none => fenceNarrowed s

/-- Whether the brace-span heuristic fired on the (possibly fence-narrowed)
text. -/
def braceFired (s : String) : Bool :=
  (braceSpan (fenceNarrowed s)).isSome

/-- `parse_json_safely` (app.py:112-125): on empty input return the empty
mapping; narrow to the interior of a `json`-tagged fence when one matches
(stripped); narrow again to the first-brace/last-brace span when one
matches; strictly parse; on any failure return the empty mapping.  The
function is total, mirroring that the Python function catches every
exception of the final parse and that the regex steps cannot raise. -/
def parse_json_safely (s : String) : JValue :=
  if s = "" then JValue.obj []
  else
    match json_loads (String.mk (extractCandidate s)) with
    | some v => v
    | none => JValue.obj []

/-- Wrap a JSON text in a `json`-tagged fenced code block. -/
def wrapFence (j : String) : String := "```json\n" ++ j ++ "\n```"

/-- Whether a char list contains three consecutive backticks. -/
def hasTriple : List Char → Bool
  | a :: b :: c :: rest =>
    (a = tk && b = tk && c = tk) || hasTriple (b :: c :: rest)
  | _ => false

/-- A Notion row after extraction (app.py:102): an identifier and a text,
both defaulted to non-null strings. -/
structure PersonRecord where
  name : String
  text : String
deriving DecidableEq

/-- First-occurrence deduplication with an explicit seen accumulator. -/
def dedupFirst : List String → List String → List String
  | [], _ => []
  | x :: xs, seen =>
    if x ∈ seen then dedupFirst xs seen else x :: dedupFirst xs (x :: seen)

/-- Lexicographic comparison of char lists by code point — the order
Python compares strings with, hence the order pandas sorts group keys
in. -/
def charListLe : List Char → List Char → Bool
  | [], _ => true
  | _ :: _, [] => false
  | a :: as, b :: bs =>
    if a < b then true else if b < a then false else charListLe as bs

/-- Python's string `<=` on Lean strings. -/
def strLe (a b : String) : Bool := charListLe a.data b.data

/-- The distinct identifiers in the order `df.groupby` emits its groups:
pandas sorts group keys ascending (its default `sort=True`). -/
def sortedNames (rows : List PersonRecord) : List String :=
  List.insertionSort (fun a b => strLe a b = true)
    (dedupFirst (rows.map PersonRecord.name) [])

/-- One identifier's corpus text: the double-newline join of its records'
non-empty texts in input order (`"\n\n".join([x for x in s if x])`,
app.py:351; groupby keeps the original order inside each group). -/
def corpusText (rows : List PersonRecord) (k : String) : String :=
  "\n\n".intercalate
    (((rows.filter (fun r => r.name = k)).map PersonRecord.text).filter (fun t => t ≠ ""))

/-- The text aggregation at app.py:351:
`df.groupby("이름")["텍스트"].apply(lambda s: "\n\n".join([x for x in s if x]))`
followed by `reset_index`: one row per distinct identifier, keys in pandas'
sorted order, texts joined in input order. -/
def grouped (rows : List PersonRecord) : List PersonRecord :=
  (sortedNames rows).map (fun k => ⟨k, corpusText rows k⟩)

/-- A relationship entry of the parsed ontology: a JSON object whose
`source`, `target` and `relation` keys may each be absent (or null, which
the accessors below treat alike). -/
structure Rel where
  source : Option String
  target : Option String
  relation : Option String
deriving DecidableEq

/-- Python truthiness of `rel.get("source")`: `None` and `""` are falsy. -/
def truthyS (o : Option String) : Bool :=
  match o with
  | none => false
  | some s => s ≠ ""

/-- The undirected graph `nx.Graph` builds: nodes in insertion order,
edges as stored (first-seen) orientation with their `label` attribute. -/
structure SGraph where
  nodes : List String
  edges : List (String × String × String)
deriving DecidableEq

/-- `nx.Graph` node insertion: appended once, first insertion wins. -/
def addNode (ns : List String) (x : String) : List String :=
  if x ∈ ns then ns else ns ++ [x]

/-- `nx.Graph.add_edge` on the edge list: an existing edge between the same
unordered pair keeps its place and stored orientation but its `label`
attribute is overwritten; otherwise the edge is appended. -/
def addEdgeList : List (String × String × String) → String → String → String →
    List (String × String × String)
  | [], s, t, l => [(s, t, l)]
  | e :: es, s, t, l =>
    if (e.1 = s ∧ e.2.1 = t) ∨ (e.1 = t ∧ e.2.1 = s) then (e.1, e.2.1, l) :: es
    else e :: addEdgeList es s t l

/-- `G.add_edge(s, t, label=lbl)`: both endpoints become nodes, then the
edge is inserted or its label overwritten. -/
def addEdge (g : SGraph) (s t l : String) : SGraph :=
  ⟨addNode (addNode g.nodes s) t, addEdgeList g.edges s t l⟩

/-- The graph-construction loop at app.py:244-247: for each relationship,
read `source`/`target` (default `None`) and `relation` (default `""`), and
add the edge when both endpoints are truthy.  No trimming is performed. -/
def buildGraph (rels : List Rel) : SGraph :=
  rels.foldl
    (fun g r =>
      if truthyS r.source ∧ truthyS r.target then
        addEdge g (r.source.getD "") (r.target.getD "") (r.relation.getD "")
      else g)
    ⟨[], []⟩

/-- The parsed ontology as the downstream code types it: each expected key
may be absent. -/
structure Ontology where
  themes : Option (List String)
  keywords : Option (List String)
  relationships : Option (List Rel)

/-- What `plot_ontology_3d` does: either the early `st.info` return, or a
rendered figure after a layout call on the built graph. -/
inductive PlotOutcome (α : Type) where
  | noRender : PlotOutcome α
  | render : SGraph → List (String × α) → PlotOutcome α
deriving DecidableEq

/-- The node pairs handed to the layout, one per stored edge. -/
def edgePairs (g : SGraph) : List (String × String) :=
  g.edges.map (fun e => (e.1, e.2.1))

/-- `plot_ontology_3d` (app.py:237-277).  `springLayout` stands for
`nx.spring_layout(G, dim=3, seed=...)`: with a fixed seed the library is a
pure function of the node list, edge list and seed, which is how it is
passed here; the call site fixes the seed to 42.  The early return fires
when the relationship list itself is empty (or the key is absent/null);
otherwise the graph is built and the layout invoked, whatever the node
set. -/
def plot_ontology_3d {α : Type}
    (springLayout : List String → List (String × String) → Nat → List (String × α))
    (ontology : Ontology) (_title : String) : PlotOutcome α :=
  let edges := ontology.relationships.getD []
  if edges.isEmpty then PlotOutcome.noRender
  else
    let G := buildGraph edges
    PlotOutcome.render G (springLayout G.nodes (edgePairs G) 42)

/-- The observable state of one `stream_generate_text` call: the returned
string and the final contents of the two display placeholders. -/
structure StreamRun where
  ret : String
  title : String
  shown : String
deriving DecidableEq

/-- Final title shown when the fragment source raised (app.py:179). -/
def streamErrTitle : String := "**📡 실시간 출력(원문)** — ❌ 오류"

/-- Final title shown when the stream ended normally (app.py:177). -/
def streamOkTitle : String := "**📡 실시간 출력(원문)** — ✅ 수신 완료"

/-- The accumulation loop at app.py:171-176: each fragment's text
(`getattr(chunk, "text", "") or ""`, `None`/missing modelled as `none`) is
appended unless empty, which is skipped. -/
def accumulate (chunks : List (Option String)) : String :=
  chunks.foldl (fun b c => if c.getD "" = "" then b else b ++ c.getD "") ""

/-- `stream_generate_text` (app.py:160-181).  `chunks` are the fragments
the completion service yielded before either finishing or raising
(`fails`).  The `except` branch keeps the accumulated buffer and returns
it; only the display placeholders record the failure. -/
def stream_generate_text (chunks : List (Option String)) (fails : Bool)
    (errMsg : String) : StreamRun :=
  let buffer := accumulate chunks
  if fails then ⟨buffer, streamErrTitle, "Streaming error: " ++ errMsg⟩
  else ⟨buffer, streamOkTitle, buffer⟩

/-- The relationship bullet loop of `build_final_prompt` (app.py:189-195):
trim `source`, `target`, `relation` (absent treated as `""` via `or ""`),
keep a bullet when both endpoints are non-empty after trimming, with the
relation appended after a colon when non-empty. -/
def relLines : List Rel → List String
  | [] => []
  | r :: rest =>
    let s := pstrip (r.source.getD "")
    let t := pstrip (r.target.getD "")
    let rel := pstrip (r.relation.getD "")
    if s ≠ "" ∧ t ≠ "" then
      (if rel ≠ "" then "- " ++ s ++ " ↔ " ++ t ++ " : " ++ rel
       else "- " ++ s ++ " ↔ " ++ t) :: relLines rest
    else relLines rest

/-- The sentinel bullet rendered when no relationship qualifies. -/
def noRelSentinel : String := "- (관계 없음)"

/-- `relationships_bullets` (app.py:196): the newline join of the bullet
lines, or the sentinel when there are none. -/
def relBullets (ontology : Ontology) : String :=
  let lines := relLines (ontology.relationships.getD [])
  if lines.isEmpty then noRelSentinel else "\n".intercalate lines

/-- The part of the final-prompt template before the relationship bullets
(app.py:198-211). -/
def promptPrefix (name themesList keywordsList : String) : String :=
  "당신은 이제부터 **" ++ name ++ "** 이며, 컨설팅을 받으러 온 **고객**입니다.\n" ++
  "당신은 AI 어시스턴트가 아닙니다. 시뮬레이션 대화에 고객 역할로 참여합니다.\n" ++
  "**모든 발화는 반드시 한국어로만** 하세요.\n\n" ++
  "[퍼소나 & 근거자료]\n" ++
  "- " ++ name ++ "의 말투/관심사/표현을 유지하세요.\n" ++
  "- 아래 온톨로지와 과거 요약에 **반드시 기반**하여 말하세요.\n" ++
  "- 근거 밖의 내용은 절대 추정하지 말고 “나는 잘 모른다.”라고 답하세요.\n\n" ++
  "[온톨로지(Themes/Keywords/Relations)]\n" ++
  "- 주제(5): " ++ themesList ++ "\n" ++
  "- 키워드(10~50): " ++ keywordsList ++ "\n" ++
  "- 관계(에지):\n"

/-- The part of the final-prompt template after the relationship bullets
(app.py:212-232). -/
def promptSuffix (name summary : String) : String :=
  "\n\n[과거 요약]\n" ++ summary ++ "\n\n" ++
  "[대화 목표]\n" ++
  "- 당신(고객)은 **자신의 사업**에 대한 컨설팅을 받으러 왔습니다.\n" ++
  "- 당신의 임무는 **좋은 질문을 많이 던지는 것**이며, 필요할 때만 간결한 맥락을 제공합니다.\n\n" ++
  "[대화 스타일 규칙 (한국어 전용)]\n" ++
  "1) **질문 중심**: 거의 매 턴마다 내 사업의 목표·지표·고객·제약·타임라인·리스크에 대해 **핵심 질문 1~2개**를 던지세요.\n" ++
  "2) **짧고 구체적으로**: 본인의 설명은 2~5문장 이내로 간결하게. 장문의 강의/설명 금지.\n" ++
  "3) **퍼소나 유지**: " ++ name ++ "의 과거 요약과 온톨로지에 맞는 어휘/톤을 사용.\n" ++
  "4) **근거만 사용**: 온톨로지/과거 요약에 없는 사실은 말하지 마세요. 모르면 “나는 잘 모른다.”\n" ++
  "5) **티칭 모드 금지**: 프레임워크 강의/일방적 조언 대신 **묻고 확인**하는 대화로 이끕니다.\n" ++
  "6) **점진적 파고들기**: 넓게 시작 → 빠르게 좁혀서 (시장/고객/가설/수치/예산/조직/리스크)로 파고드세요.\n" ++
  "7) **역할 유지**: 시뮬레이션을 절대 깨지 말고, AI/시뮬레이션 언급 금지.\n\n" ++
  "[오프닝 턴 가이드]\n" ++
  "- 먼저 현재 상황을 **1~2문장**으로 요약하세요(온톨로지/과거 요약에 근거).\n" ++
  "- 이어서 **핵심 질문 1~2개**를 던지세요.\n"

/-- `build_final_prompt` (app.py:186-232): themes and keywords joined with
commas (absent keys default to the empty list, so the function is total —
the Python original only uses `.get` with defaults here), the relationship
bullets in the middle of the fixed template. -/
def build_final_prompt (name : String) (ontology : Ontology) (summary : String) :
    String :=
  promptPrefix name
      (", ".intercalate (ontology.themes.getD []))
      (", ".intercalate (ontology.keywords.getD []))
    ++ relBullets ontology
    ++ promptSuffix name summary

/-- A list of parsed values read as strings, failing on the first
non-string element — where `", ".join(...)` raises `TypeError`.  Nothing
is dropped silently. -/
def jStrs : List JValue → Option (List String)
  | [] => some []
  | JValue.str s :: rest => (jStrs rest).map (fun l => s :: l)
  | _ :: _ => none

/-- A `themes`/`keywords` value as consumed by `", ".join(...)`.  The
modelled fragment is exactly the shape the ontology prompt requests, a
JSON array of strings; anything else is `none`.  (Python's `join` also
happens to accept a few other duck-typed shapes, such as a plain string
or a dict with string keys, and raises on the rest — both sides of that
divide lie outside the fragment and are left undetermined.) -/
def jStrListE : JValue → Option (List String)
  | JValue.arr l => jStrs l
  | _ => none

/-- A relationship field value as consumed by the graph builder
(truthiness) and the prompt builder (`(value or "").strip()`): an absent
key and `null` behave as empty, a string is used as-is.  A truthy
non-string would raise `.strip()` in `build_final_prompt`; a falsy
non-string would behave as empty — both are outside the modelled fragment
and map to `none`. -/
def jFieldE : Option JValue → Option (Option String)
  | none => some none
  | some JValue.null => some none
  | some (JValue.str s) => some (some s)
  | some _ => none

/-- One relationship as consumed by the pipeline: a JSON object whose
`source`/`target`/`relation` values are absent, `null` or strings.  A
non-object element raises `.get` in `plot_ontology_3d`
(`AttributeError`) and is outside the fragment. -/
def jRelE : JValue → Option Rel
  | JValue.obj m =>
    match jFieldE (lookupKV m "source"), jFieldE (lookupKV m "target"),
        jFieldE (lookupKV m "relation") with
    | some s, some t, some r => some ⟨s, t, r⟩
    | _, _, _ => none
  | _ => none

/-- A list of parsed values read as relationships, failing on the first
non-conforming element.  Nothing is dropped silently. -/
def jRels : List JValue → Option (List Rel)
  | [] => some []
  | v :: rest =>
    match jRelE v with
    | some r => (jRels rest).map (fun l => r :: l)
    | none => none

/-- A `relationships` value as consumed by the pipeline: a JSON array of
conforming relationship objects. -/
def jRelListE : JValue → Option (List Rel)
  | JValue.arr l => jRels l
  | _ => none

/-- An optional ontology field: absent is fine, a present value must
conform. -/
def optFieldE {α : Type} (f : JValue → Option α) : Option JValue → Option (Option α)
  | none => some none
  | some v => (f v).map some

/-- The typed view of a parsed ontology mapping, defined exactly on the
shapes the ontology prompt requests: `themes`/`keywords` absent or string
arrays, `relationships` absent or an array of objects with absent, `null`
or string fields.  On this fragment every step of the Python pipeline
(the relationship table, the 3-D plot, the joins and trims of
`build_final_prompt`) succeeds; outside it the duck-typed code may raise
(e.g. `", ".join([1])` or `(5).strip()`) or complete, and the view is
`none`. -/
def ontTypedE (kvs : List (String × JValue)) : Option Ontology :=
  match optFieldE jStrListE (lookupKV kvs "themes"),
      optFieldE jStrListE (lookupKV kvs "keywords"),
      optFieldE jRelListE (lookupKV kvs "relationships") with
  | some th, some kw, some rl => some ⟨th, kw, rl⟩
  | _, _, _ => none

/-- Python truthiness of a parsed JSON value (`if not ontology:`). -/
def pyFalsy : JValue → Bool
  | JValue.null => true
  | JValue.bool b => !b
  | JValue.num raw =>
    let m := raw.data.takeWhile (fun c => c ≠ 'e' ∧ c ≠ 'E')
    (m.any Char.isDigit) && (m.all (fun c => !c.isDigit || c = '0'))
  | JValue.str s => s = ""
  | JValue.arr l => l.isEmpty
  | JValue.obj l => l.isEmpty

/-- One cache entry (`st.session_state.analysis[name]`, app.py:324-328). -/
structure Analysis where
  ontology : JValue
  summary : String
  final_prompt : String

/-- The behaviour of the completion service during one analysis: the
fragments of the two streamed calls and whether each raised mid-stream. -/
structure MB where
  ontChunks : List (Option String)
  ontFails : Bool
  sumChunks : List (Option String)
  sumFails : Bool

/-- How one button press ended. -/
inductive RunOutcome where
  | cachedHit : RunOutcome
  | parseFailed : RunOutcome
  | crashed : RunOutcome
  | completed : RunOutcome
deriving DecidableEq

/-- The observable result of one button press: the session cache
afterwards, how many `model.generate_content` calls were made, and how the
run ended. -/
structure RunResult where
  cache : List (String × Analysis)
  calls : Nat
  outcome : RunOutcome

/-- Association lookup in the session cache. -/
def lookupA (cache : List (String × Analysis)) (k : String) : Option Analysis :=
  match cache with
  | [] => none
  | (k₂, a) :: rest => if k = k₂ then some a else lookupA rest k

/-- Dictionary assignment `st.session_state.analysis[name] = {...}`. -/
def setA (cache : List (String × Analysis)) (k : String) (a : Analysis) :
    List (String × Analysis) :=
  match cache with
  | [] => [(k, a)]
  | (k₂, b) :: rest => if k = k₂ then (k, a) :: rest else (k₂, b) :: setA rest k a

/-- `analyze_and_render_streaming` (app.py:282-328): stream the ontology
(one completion call), parse it; a falsy parse aborts with an error and
writes nothing.  A truthy non-mapping parse crashes at
`ontology.get("relationships")` (uncaught `AttributeError`), also writing
nothing.  For a truthy mapping of the shapes the prompt requests
(`ontTypedE` succeeds) the rendering section succeeds, the summary is
streamed (second completion call, errors swallowed inside the sink), the
final prompt built, and the cache entry written at the end.  A truthy
mapping outside those shapes reaches duck-typed library calls
(`pd.DataFrame`, `", ".join`, `.strip`) whose raise-or-complete behaviour
the embedding does not determine: that branch is `none`, and no theorem
relies on it. -/
def analyze_and_render_streaming (name : String) (_all_text : String) (mb : MB)
    (cache : List (String × Analysis)) : Option RunResult :=
  let rawOnt := (stream_generate_text mb.ontChunks mb.ontFails "e").ret
  let ontology := parse_json_safely rawOnt
  if pyFalsy ontology then some ⟨cache, 1, RunOutcome.parseFailed⟩
  else
    match ontology with
    | JValue.obj kvs =>
      match ontTypedE kvs with
      | some ont =>
        let rawSum := (stream_generate_text mb.sumChunks mb.sumFails "e").ret
        let summary := pstrip rawSum
        let fp := build_final_prompt name ont summary
        some ⟨setA cache name ⟨JValue.obj kvs, summary, fp⟩, 2, RunOutcome.completed⟩
      | none => none
    | _ => some ⟨cache, 1, RunOutcome.crashed⟩

/-- The per-person button handler (app.py:374-402): a cached identifier is
rendered entirely from the cache with no completion call; otherwise the
streaming analysis runs (partial exactly where the analysis is). -/
def runExtraction (name allText : String) (mb : MB)
    (cache : List (String × Analysis)) : Option RunResult :=
  match lookupA cache name with
  | some _ => some ⟨cache, 0, RunOutcome.cachedHit⟩
  | none => analyze_and_render_streaming name allText mb cache

/-! Specification-side definitions, written after the spec's words so that
the code-translated definitions above can be compared against them. -/

/-- Spec form of the stream accumulator: the plain concatenation of the
fragments' texts in arrival order. -/
def concatTexts : List (Option String) → String
  | [] => ""
  | c :: rest => c.getD "" ++ concatTexts rest

/-- Two ordered pairs name the same unordered node pair. -/
def sameUP (p q : String × String) : Prop :=
  (p.1 = q.1 ∧ p.2 = q.2) ∨ (p.1 = q.2 ∧ p.2 = q.1)

/-- Boolean form of `sameUP`. -/
def sameUb (p q : String × String) : Bool :=
  (p.1 = q.1 && p.2 = q.2) || (p.1 = q.2 && p.2 = q.1)

/-- The unordered key of a stored edge: its two endpoints. -/
def edgeKey (e : String × String × String) : String × String := (e.1, e.2.1)

/-- Two stored edges connect different unordered node pairs. -/
def notSame (e₁ e₂ : String × String × String) : Prop :=
  ¬ sameUP (edgeKey e₁) (edgeKey e₂)

/-- Spec form of relationship validity in `build_final_prompt`: both
endpoints non-empty after trimming. -/
def validRelB (r : Rel) : Bool :=
  pstrip (r.source.getD "") ≠ "" && pstrip (r.target.getD "") ≠ ""

/-- Spec form of one rendered relationship bullet. -/
def renderRelLine (r : Rel) : String :=
  let s := pstrip (r.source.getD "")
  let t := pstrip (r.target.getD "")
  let rel := pstrip (r.relation.getD "")
  if rel ≠ "" then "- " ++ s ++ " ↔ " ++ t ++ " : " ++ rel
  else "- " ++ s ++ " ↔ " ++ t

/-- A concrete deterministic layout function, standing in for the external
spring layout in closed statements. -/
def trivLayout : List String → List (String × String) → Nat → List (String × Int) :=
  fun ns _ _ => ns.map (fun n => (n, 0))

/-! Helper lemmas. -/

/-- The accumulation loop appends each fragment's text to the running
buffer, so starting from `b` it produces `b` followed by the plain
concatenation. -/
theorem accumulate_loop (chunks : List (Option String)) (b : String) :
    chunks.foldl (fun b c => if c.getD "" = "" then b else b ++ c.getD "") b
      = b ++ concatTexts chunks := by
  induction chunks generalizing b with
  | nil => simp [concatTexts]
  | cons c rest ih =>
    simp only [List.foldl_cons, concatTexts]
    by_cases h : c.getD "" = ""
    · simp [h, ih]
    · simp [h, ih, String.append_assoc]

/-- The stream sink's buffer is exactly the concatenation of the arriving
texts. -/
theorem accumulate_eq (chunks : List (Option String)) :
    accumulate chunks = concatTexts chunks := by
  simpa using accumulate_loop chunks ""

/-- `buildGraph` folds its step over the relationship list; skipping the
untruthy entries up front changes nothing. -/
theorem buildGraph_loop_filter (rels : List Rel) (g : SGraph) :
    rels.foldl
        (fun g r =>
          if truthyS r.source ∧ truthyS r.target then
            addEdge g (r.source.getD "") (r.target.getD "") (r.relation.getD "")
          else g) g
      = (rels.filter (fun r => truthyS r.source && truthyS r.target)).foldl
          (fun g r =>
            if truthyS r.source ∧ truthyS r.target then
              addEdge g (r.source.getD "") (r.target.getD "") (r.relation.getD "")
            else g) g := by
  induction rels generalizing g with
  | nil => rfl
  | cons r rest ih =>
    by_cases h : truthyS r.source ∧ truthyS r.target
    · simp [List.filter_cons, h, ih]
    · simp only [List.foldl_cons, List.filter_cons]
      rw [if_neg h]
      have hb : (truthyS r.source && truthyS r.target) = false := by
        rcases Bool.eq_false_or_eq_true (truthyS r.source) with hs | hs <;>
          rcases Bool.eq_false_or_eq_true (truthyS r.target) with ht | ht <;>
            simp [hs, ht] at h ⊢
      simp [hb, ih]

/-- `sameUb` decides `sameUP`. -/
theorem sameUb_iff (p q : String × String) : sameUb p q = true ↔ sameUP p q := by
  simp [sameUb, sameUP]

/-- Naming the same unordered pair is symmetric. -/
theorem sameUP_symm {a b : String × String} (h : sameUP a b) : sameUP b a := by
  rcases h with ⟨x, y⟩ | ⟨x, y⟩ <;> simp_all [sameUP]

/-- Naming the same unordered pair is transitive. -/
theorem sameUP_trans {a b c : String × String}
    (h₁ : sameUP a b) (h₂ : sameUP b c) : sameUP a c := by
  rcases h₁ with ⟨x₁, y₁⟩ | ⟨x₁, y₁⟩ <;> rcases h₂ with ⟨x₂, y₂⟩ | ⟨x₂, y₂⟩ <;>
    simp_all [sameUP]

/-- Everything in the updated edge list either keys the inserted pair or
keeps the key of an existing entry. -/
theorem mem_addEdgeList {es : List (String × String × String)} {s t l : String}
    {x : String × String × String} (hx : x ∈ addEdgeList es s t l) :
    sameUP (edgeKey x) (s, t) ∨ ∃ y ∈ es, edgeKey x = edgeKey y := by
  induction es with
  | nil =>
    simp only [addEdgeList, List.mem_singleton] at hx
    subst hx
    exact Or.inl (Or.inl ⟨rfl, rfl⟩)
  | cons e es ih =>
    simp only [addEdgeList] at hx
    split at hx
    · rcases List.mem_cons.mp hx with h | h
      · exact Or.inr ⟨e, List.mem_cons_self e es, by simp [h, edgeKey]⟩
      · exact Or.inr ⟨x, List.mem_cons_of_mem e h, rfl⟩
    · rcases List.mem_cons.mp hx with h | h
      · exact Or.inr ⟨e, List.mem_cons_self e es, by simp [h]⟩
      · rcases ih h with h₂ | ⟨y, hy, hk⟩
        · exact Or.inl h₂
        · exact Or.inr ⟨y, List.mem_cons_of_mem e hy, hk⟩

/-- `add_edge` keeps all stored unordered pairs distinct. -/
theorem pairwise_addEdgeList {es : List (String × String × String)} {s t l : String}
    (h : es.Pairwise notSame) : (addEdgeList es s t l).Pairwise notSame := by
  induction es with
  | nil => simp [addEdgeList, notSame]
  | cons e es ih =>
    rcases List.pairwise_cons.mp h with ⟨hhead, htail⟩
    simp only [addEdgeList]
    split
    · refine List.pairwise_cons.mpr ⟨fun x hx => ?_, htail⟩
      have : notSame e x := hhead x hx
      simpa [notSame, edgeKey] using this
    · rename_i hcond
      refine List.pairwise_cons.mpr ⟨fun x hx => ?_, ih htail⟩
      rcases mem_addEdgeList hx with hst | ⟨y, hy, hk⟩
      · intro habs
        exact hcond (sameUP_trans habs hst)
      · have : notSame e y := hhead y hy
        simpa [notSame, hk] using this

/-- The step function of the graph-building fold preserves distinctness of
unordered pairs. -/
theorem buildGraph_loop_pairwise (rels : List Rel) (g : SGraph)
    (hg : g.edges.Pairwise notSame) :
    (rels.foldl
        (fun g r =>
          if truthyS r.source ∧ truthyS r.target then
            addEdge g (r.source.getD "") (r.target.getD "") (r.relation.getD "")
          else g) g).edges.Pairwise notSame := by
  induction rels generalizing g with
  | nil => exact hg
  | cons r rest ih =>
    simp only [List.foldl_cons]
    by_cases h : truthyS r.source ∧ truthyS r.target
    · rw [if_pos h]
      exact ih _ (pairwise_addEdgeList hg)
    · rw [if_neg h]
      exact ih _ hg

/-- The built graph's unordered pairs are pairwise distinct. -/
theorem buildGraph_pairwise (rels : List Rel) :
    (buildGraph rels).edges.Pairwise notSame :=
  buildGraph_loop_pairwise rels ⟨[], []⟩ (by simp)

/-- A list of pairwise-distinct unordered pairs matches any queried pair at
most once. -/
theorem countP_le_one_of_pairwise {l : List (String × String × String)}
    (h : l.Pairwise notSame) (s t : String) :
    l.countP (fun e => sameUb (edgeKey e) (s, t)) ≤ 1 := by
  induction l with
  | nil => simp
  | cons e es ih =>
    rcases List.pairwise_cons.mp h with ⟨hhead, htail⟩
    rw [List.countP_cons]
    by_cases hp : sameUb (edgeKey e) (s, t) = true
    · have hzero : es.countP (fun x => sameUb (edgeKey x) (s, t)) = 0 := by
        rw [List.countP_eq_zero]
        intro x hx habs
        exact (hhead x hx)
          (sameUP_trans ((sameUb_iff _ _).mp hp) (sameUP_symm ((sameUb_iff _ _).mp habs)))
      simp [hp, hzero]
    · simp only [Bool.not_eq_true] at hp
      simpa [hp] using ih htail

/-! Claim theorems. -/

/-- C5: the graph builder stores at most one edge per unordered node pair —
a second relationship between the same (possibly swapped) endpoints
overwrites the first edge's label in place — and on the spec's example the
single surviving edge carries the later label `r2`. -/
theorem c5_theorem :
    (∀ (rels : List Rel) (s t : String),
        (buildGraph rels).edges.countP (fun e => sameUb (e.1, e.2.1) (s, t)) ≤ 1)
      ∧ buildGraph [⟨some "A", some "B", some "r1"⟩, ⟨some "A", some "B", some "r2"⟩]
          = ⟨["A", "B"], [("A", "B", "r2")]⟩ :=
  ⟨fun rels s t => countP_le_one_of_pairwise (buildGraph_pairwise rels) s t, rfl⟩

/-- The bullet loop keeps exactly the relationships whose trimmed endpoints
are both non-empty, rendering each with the trimmed fields. -/
theorem relLines_eq (rels : List Rel) :
    relLines rels = (rels.filter validRelB).map renderRelLine := by
  induction rels with
  | nil => rfl
  | cons r rest ih =>
    by_cases h : pstrip (r.source.getD "") ≠ "" ∧ pstrip (r.target.getD "") ≠ ""
    · have hb : validRelB r = true := by
        simp [validRelB, h.1, h.2]
      simp only [relLines, List.filter_cons, hb, if_pos h, List.map_cons, ih]
      rfl
    · have hb : validRelB r = false := by
        rcases Decidable.not_and_iff_or_not.mp h with hs | ht
        · simp only [ne_eq, Decidable.not_not] at hs
          simp [validRelB, hs]
        · simp only [ne_eq, Decidable.not_not] at ht
          simp [validRelB, ht]
      simp [relLines, List.filter_cons, hb, if_neg h, ih]

/-- C10: `build_final_prompt` renders one bullet exactly for each
relationship whose trimmed source and target are non-empty (with the
trimmed source, target and relation values), falls back to the single
`(관계 없음)` sentinel when no relationship qualifies, and the bullets block
sits verbatim inside the produced prompt.  The embedding is total — every
key access of the Python original uses a default, so absent `themes`,
`keywords` or `relationships` keys cannot raise. -/
theorem c10_theorem (name summary : String) (ont : Ontology) :
    relLines (ont.relationships.getD [])
        = ((ont.relationships.getD []).filter validRelB).map renderRelLine
      ∧ relBullets ont
          = (if ((ont.relationships.getD []).filter validRelB).isEmpty then noRelSentinel
             else "\n".intercalate
               (((ont.relationships.getD []).filter validRelB).map renderRelLine))
      ∧ build_final_prompt name ont summary
          = promptPrefix name
                (", ".intercalate (ont.themes.getD []))
                (", ".intercalate (ont.keywords.getD []))
              ++ relBullets ont ++ promptSuffix name summary := by
  refine ⟨relLines_eq _, ?_, rfl⟩
  simp only [relBullets, relLines_eq]
  cases h : (ont.relationships.getD []).filter validRelB with
  | nil => simp
  | cons a l => simp

/-- Membership in the deduplicated list: present in the input and not yet
seen. -/
theorem dedupFirst_mem (l : List String) :
    ∀ (seen : List String) (x : String),
      x ∈ dedupFirst l seen ↔ x ∈ l ∧ x ∉ seen := by
  induction l with
  | nil => simp [dedupFirst]
  | cons y ys ih =>
    intro seen x
    by_cases hy : y ∈ seen
    · rw [dedupFirst, if_pos hy, ih]
      constructor
      · rintro ⟨h₁, h₂⟩
        exact ⟨List.mem_cons_of_mem y h₁, h₂⟩
      · rintro ⟨h₁, h₂⟩
        rcases List.mem_cons.mp h₁ with rfl | h₁
        · exact absurd hy h₂
        · exact ⟨h₁, h₂⟩
    · rw [dedupFirst, if_neg hy]
      constructor
      · intro h
        rcases List.mem_cons.mp h with rfl | h
        · exact ⟨List.mem_cons_self x ys, hy⟩
        · rcases (ih (y :: seen) x).mp h with ⟨h₁, h₂⟩
          exact ⟨List.mem_cons_of_mem y h₁, fun hs => h₂ (List.mem_cons_of_mem y hs)⟩
      · rintro ⟨h₁, h₂⟩
        rcases List.mem_cons.mp h₁ with rfl | h₁
        · exact List.mem_cons_self x _
        · by_cases hxy : x = y
          · subst hxy
            exact List.mem_cons_self x _
          · refine List.mem_cons_of_mem y ((ih (y :: seen) x).mpr ⟨h₁, ?_⟩)
            intro hs
            rcases List.mem_cons.mp hs with h | h
            · exact hxy h
            · exact h₂ h

/-- The deduplicated list has no duplicates. -/
theorem dedupFirst_nodup (l : List String) :
    ∀ seen : List String, (dedupFirst l seen).Nodup := by
  induction l with
  | nil => intro seen; simp [dedupFirst]
  | cons y ys ih =>
    intro seen
    by_cases hy : y ∈ seen
    · rw [dedupFirst, if_pos hy]
      exact ih seen
    · rw [dedupFirst, if_neg hy]
      refine List.nodup_cons.mpr ⟨?_, ih (y :: seen)⟩
      intro hmem
      exact ((dedupFirst_mem ys (y :: seen) y).mp hmem).2 (List.mem_cons_self y seen)

/-- The code-point order is total. -/
theorem charListLe_total : ∀ as bs : List Char,
    charListLe as bs = true ∨ charListLe bs as = true := by
  intro as
  induction as with
  | nil => intro bs; exact Or.inl rfl
  | cons a as ih =>
    intro bs
    cases bs with
    | nil => exact Or.inr rfl
    | cons b bs =>
      rcases lt_trichotomy a b with h | h | h
      · exact Or.inl (by simp [charListLe, h])
      · subst h
        rcases ih bs with h₂ | h₂
        · exact Or.inl (by simp [charListLe, h₂])
        · exact Or.inr (by simp [charListLe, h₂])
      · exact Or.inr (by simp [charListLe, h])

/-- The code-point order is transitive. -/
theorem charListLe_trans : ∀ as bs cs : List Char,
    charListLe as bs = true → charListLe bs cs = true → charListLe as cs = true := by
  intro as
  induction as with
  | nil => intro bs cs _ _; rfl
  | cons a as ih =>
    intro bs cs h₁ h₂
    cases bs with
    | nil => simp [charListLe] at h₁
    | cons b bs =>
      cases cs with
      | nil => simp [charListLe] at h₂
      | cons c cs =>
        simp only [charListLe] at h₁ h₂ ⊢
        by_cases hab : a < b
        · by_cases hbc : b < c
          · simp [lt_trans hab hbc]
          · by_cases hcb : c < b
            · simp [hbc, hcb] at h₂
            · have : b = c := le_antisymm (not_lt.mp hcb) (not_lt.mp hbc)
              subst this
              simp [hab]
        · by_cases hba : b < a
          · simp [hab, hba] at h₁
          · have : a = b := le_antisymm (not_lt.mp hba) (not_lt.mp hab)
            subst this
            rw [if_neg (lt_irrefl a), if_neg (lt_irrefl a)] at h₁
            by_cases hac : a < c
            · simp [hac]
            · by_cases hca : c < a
              · simp [hac, hca] at h₂
              · have : a = c := le_antisymm (not_lt.mp hca) (not_lt.mp hac)
                subst this
                rw [if_neg (lt_irrefl a), if_neg (lt_irrefl a)] at h₂ ⊢
                exact ih bs cs h₁ h₂

/-- The group keys are the input identifiers, deduplicated and sorted. -/
theorem sortedNames_mem (rows : List PersonRecord) (k : String) :
    k ∈ sortedNames rows ↔ k ∈ rows.map PersonRecord.name := by
  rw [sortedNames,
    (List.perm_insertionSort (fun a b => strLe a b = true) _).mem_iff, dedupFirst_mem]
  simp

/-- The group keys contain no duplicates. -/
theorem sortedNames_nodup (rows : List PersonRecord) : (sortedNames rows).Nodup :=
  (List.perm_insertionSort (fun a b => strLe a b = true) _).nodup_iff.mpr
    (dedupFirst_nodup (rows.map PersonRecord.name) [])

/-- The group keys are sorted ascending in Python's string order, as pandas
emits group keys. -/
theorem sortedNames_sorted (rows : List PersonRecord) :
    List.Sorted (fun a b => strLe a b = true) (sortedNames rows) := by
  haveI : IsTotal String (fun a b => strLe a b = true) :=
    ⟨fun a b => charListLe_total a.data b.data⟩
  haveI : IsTrans String (fun a b => strLe a b = true) :=
    ⟨fun a b c => charListLe_trans a.data b.data c.data⟩
  exact List.sorted_insertionSort (fun a b => strLe a b = true) _

/-- The names of the aggregated corpora are exactly the sorted group
keys. -/
theorem grouped_map_name (rows : List PersonRecord) :
    (grouped rows).map PersonRecord.name = sortedNames rows := by
  unfold grouped
  rw [List.map_map]
  exact List.map_id _

/-- C1 counterexample: on the input whose first-seen identifier order is
`B, A`, the aggregator emits the corpora in sorted order `A, B` (pandas
`groupby` sorts group keys), not in first-seen order. -/
theorem c1_counterexample :
    grouped [⟨"B", "x"⟩, ⟨"A", "y"⟩] = [⟨"A", "y"⟩, ⟨"B", "x"⟩]
      ∧ (grouped [⟨"B", "x"⟩, ⟨"A", "y"⟩]).map PersonRecord.name ≠ ["B", "A"]
      ∧ dedupFirst ([⟨"B", "x"⟩, ⟨"A", "y"⟩].map PersonRecord.name) [] = ["B", "A"] := by
  refine ⟨?_, ?_, rfl⟩ <;> decide

/-- C1 (amended): the aggregator produces exactly one corpus per distinct
identifier, with the entries in ascending sorted identifier order (the
order pandas `groupby` emits, not first-seen order), and each corpus text
is the double-newline join of that identifier's non-empty texts in input
order. -/
theorem c1_amended (rows : List PersonRecord) :
    ((grouped rows).map PersonRecord.name).Nodup
      ∧ List.Sorted (fun a b => strLe a b = true) ((grouped rows).map PersonRecord.name)
      ∧ (∀ k, k ∈ (grouped rows).map PersonRecord.name ↔ k ∈ rows.map PersonRecord.name)
      ∧ ∀ e ∈ grouped rows, e.text = corpusText rows e.name := by
  refine ⟨?_, ?_, ?_, ?_⟩
  · rw [grouped_map_name]; exact sortedNames_nodup rows
  · rw [grouped_map_name]; exact sortedNames_sorted rows
  · intro k; rw [grouped_map_name]; exact sortedNames_mem rows k
  · intro e he
    rcases List.mem_map.mp he with ⟨k, _, rfl⟩
    rfl

/-- C1 witness: the amended statement evaluated on a one-row input. -/
theorem c1_witness :
    ("A" ∈ (grouped [⟨"A", "x"⟩]).map PersonRecord.name)
      ∧ (⟨"A", "x"⟩ : PersonRecord).text = corpusText [⟨"A", "x"⟩] "A" := by
  have h := c1_amended [⟨"A", "x"⟩]
  exact ⟨(h.2.2.1 "A").mpr (by decide), h.2.2.2 ⟨"A", "x"⟩ (by decide)⟩

/-- Writing the cache entry makes the identifier a cache hit. -/
theorem lookupA_setA (cache : List (String × Analysis)) (k : String) (a : Analysis) :
    lookupA (setA cache k a) k = some a := by
  induction cache with
  | nil => simp [setA, lookupA]
  | cons p rest ih =>
    by_cases h : k = p.1
    · simp [setA, lookupA, h]
    · simp [setA, lookupA, h, ih]

/-- C9 counterexample: with a well-parsing ontology stream but a summary
stream that raises mid-way (the display title records the failure), the
run still completes and writes the cache entry for the identifier, so the
failed analysis is served from cache on retry instead of re-running. -/
theorem c9_counterexample :
    (stream_generate_text [some "partial "] true "e").title = streamErrTitle
      ∧ (runExtraction "Kim" "t"
            ⟨[some (lbS ++ "\"a\":1" ++ rbS)], false, [some "partial "], true⟩
            []).map RunResult.outcome = some RunOutcome.completed
      ∧ (runExtraction "Kim" "t"
            ⟨[some (lbS ++ "\"a\":1" ++ rbS)], false, [some "partial "], true⟩
            []).map (fun r => (lookupA r.cache "Kim").isSome) = some true :=
  ⟨rfl, rfl, rfl⟩

/-- C9 (amended): a cached identifier is served with zero completion calls
and an unchanged cache.  On a cache miss, a falsy ontology parse aborts
without writing the cache (so a retry re-runs the analysis), and a truthy
non-mapping parse crashes at its first attribute access, also without
writing; but whenever the ontology parse yields a truthy mapping of the
shapes the ontology prompt requests (`ontTypedE` succeeds) the cache
entry is written and both completion calls are counted, regardless of
whether either stream reported a mid-stream failure.  Truthy mappings
outside those shapes are outside the modelled fragment and no conclusion
is drawn about them. -/
theorem c9_amended (name text : String) (mb : MB) (cache : List (String × Analysis)) :
    (∀ a, lookupA cache name = some a →
        runExtraction name text mb cache = some ⟨cache, 0, RunOutcome.cachedHit⟩)
      ∧ (lookupA cache name = none →
          (pyFalsy (parse_json_safely
                (stream_generate_text mb.ontChunks mb.ontFails "e").ret) = true →
              runExtraction name text mb cache
                = some ⟨cache, 1, RunOutcome.parseFailed⟩)
            ∧ (∀ v,
                parse_json_safely (stream_generate_text mb.ontChunks mb.ontFails "e").ret
                    = v →
                pyFalsy v = false →
                (∀ kvs, v ≠ JValue.obj kvs) →
                runExtraction name text mb cache = some ⟨cache, 1, RunOutcome.crashed⟩)
            ∧ ∀ kvs ont,
                parse_json_safely (stream_generate_text mb.ontChunks mb.ontFails "e").ret
                    = JValue.obj kvs →
                pyFalsy (JValue.obj kvs) = false →
                ontTypedE kvs = some ont →
                ∃ r, runExtraction name text mb cache = some r
                  ∧ (lookupA r.cache name).isSome = true
                  ∧ r.calls = 2
                  ∧ r.outcome = RunOutcome.completed) := by
  constructor
  · intro a ha
    simp [runExtraction, ha]
  · intro hnone
    refine ⟨?_, ?_, ?_⟩
    · intro hf
      simp [runExtraction, hnone, analyze_and_render_streaming, hf]
    · intro v hv hf hno
      cases v with
      | obj kvs => exact absurd rfl (hno kvs)
      | null => simp [pyFalsy] at hf
      | bool b =>
        cases b with
        | false => simp [pyFalsy] at hf
        | true => simp [runExtraction, hnone, analyze_and_render_streaming, hv, hf]
      | num raw => simp [runExtraction, hnone, analyze_and_render_streaming, hv, hf]
      | str s => simp [runExtraction, hnone, analyze_and_render_streaming, hv, hf]
      | arr l => simp [runExtraction, hnone, analyze_and_render_streaming, hv, hf]
    · intro kvs ont hk hf ho
      simp only [runExtraction, hnone, analyze_and_render_streaming, hk, hf, ho,
        Bool.false_eq_true, if_false]
      exact ⟨_, rfl, by simp [lookupA_setA], rfl, rfl⟩

/-- C9 witness: a concrete cached identifier is re-served from the cache
with zero completion calls. -/
theorem c9_witness :
    runExtraction "Kim" "t" ⟨[], false, [], false⟩
        [("Kim", ⟨JValue.obj [], "", ""⟩)]
      = some ⟨[("Kim", ⟨JValue.obj [], "", ""⟩)], 0, RunOutcome.cachedHit⟩ :=
  (c9_amended "Kim" "t" ⟨[], false, [], false⟩ [("Kim", ⟨JValue.obj [], "", ""⟩)]).1
    ⟨JValue.obj [], "", ""⟩ rfl

/-! Lemmas about the JSON parser, leading to the two extractor claims. -/

/-- Lift a suffix across one leading character. -/
theorem suffix_cons_lift {l t : List Char} (a : Char) (h : l <:+ t) : l <:+ a :: t :=
  h.trans (List.suffix_cons a t)

/-- The string-body parser returns a suffix of its input. -/
theorem parseStringBody_suffix :
    ∀ cs content rs, parseStringBody cs = some (content, rs) → rs <:+ cs := by
  intro cs
  induction cs using parseStringBody.induct <;> intro content rs h <;>
    rw [parseStringBody.eq_def] at h <;> simp_all
  all_goals rename_i ih
  all_goals repeat apply suffix_cons_lift
  all_goals exact ih

/-- The integer-part scanner returns a suffix of its input. -/
theorem intPart_suffix {cs ip rs} (h : intPart cs = some (ip, rs)) : rs <:+ cs := by
  rw [intPart.eq_def] at h
  split at h
  · injection h with h'
    injection h' with h₁ h₂
    subst h₂
    exact List.suffix_cons _ _
  · split at h
    · injection h with h'
      injection h' with h₁ h₂
      subst h₂
      exact (List.dropWhile_suffix _).trans (List.suffix_cons _ _)
    · cases h
  · cases h

/-- The fraction-part scanner returns a suffix of its input. -/
theorem fracPart_suffix (cs : List Char) : (fracPart cs).2 <:+ cs := by
  rw [fracPart.eq_def]
  split
  · dsimp only
    split
    · exact List.suffix_refl _
    · exact (List.dropWhile_suffix _).trans (List.suffix_cons _ _)
  · exact List.suffix_refl _

/-- The exponent-part scanner returns a suffix of its input. -/
theorem expPart_suffix (cs : List Char) : (expPart cs).2 <:+ cs := by
  rw [expPart.eq_def]
  split
  · split
    · split
      · split
        · dsimp only
          split
          · exact List.suffix_refl _
          · exact (List.dropWhile_suffix _).trans
              (suffix_cons_lift _ (List.suffix_cons _ _))
        · dsimp only
          split
          · exact List.suffix_refl _
          · exact (List.dropWhile_suffix _).trans (List.suffix_cons _ _)
      · exact List.suffix_refl _
    · exact List.suffix_refl _
  · exact List.suffix_refl _

/-- The number parser returns a suffix of its input. -/
theorem parseNumber_suffix {cs v rs} (h : parseNumber cs = some (v, rs)) :
    rs <:+ cs := by
  rw [parseNumber.eq_def] at h
  split at h
  · rename_i r
    split at h
    · rename_i ip r₁ hip
      injection h with h'
      injection h' with h₁ h₂
      subst h₂
      exact ((expPart_suffix (fracPart r₁).2).trans
        ((fracPart_suffix r₁).trans (intPart_suffix hip))).trans (List.suffix_cons _ _)
    · cases h
  · split at h
    · rename_i ip r₁ hip
      injection h with h'
      injection h' with h₁ h₂
      subst h₂
      exact (expPart_suffix (fracPart r₁).2).trans
        ((fracPart_suffix r₁).trans (intPart_suffix hip))
    · cases h

/-- The number parser only produces number values. -/
theorem parseNumber_shape {cs v rs} (h : parseNumber cs = some (v, rs)) :
    ∃ raw, v = JValue.num raw := by
  rw [parseNumber.eq_def] at h
  split at h <;> split at h <;>
    first
      | (injection h with h'; injection h' with h₁ h₂; exact ⟨_, h₁.symm⟩)
      | cases h

/-- Whitespace skipping yields a suffix. -/
theorem skipWs_suffix (cs : List Char) : skipWs cs <:+ cs :=
  List.dropWhile_suffix jws

/-- The fueled parser returns a suffix of its input, whatever the
request. -/
theorem parseP_suffix :
    ∀ f req cs r rs, parseP f req cs = some (r, rs) → rs <:+ cs := by
  intro f
  induction f with
  | zero => intro req cs r rs h; simp [parseP] at h
  | succ f ih =>
    intro req cs r rs h
    cases req
    case val =>
      cases cs with
      | nil => simp [parseP] at h
      | cons c rest =>
        simp only [parseP] at h
        split at h
        · rcases hm : parseP f PReq.members rest with _ | ⟨p, rs₂⟩
          · rw [hm] at h; cases h
          · rw [hm] at h
            rcases p with v | kvs | vs
            · cases h
            · injection h with h'
              injection h' with h₁ h₂
              subst h₂
              exact suffix_cons_lift _ (ih PReq.members rest _ _ hm)
            · cases h
        · split at h
          · rcases hm : parseP f PReq.items rest with _ | ⟨p, rs₂⟩
            · rw [hm] at h; cases h
            · rw [hm] at h
              rcases p with v | kvs | vs
              · cases h
              · cases h
              · injection h with h'
                injection h' with h₁ h₂
                subst h₂
                exact suffix_cons_lift _ (ih PReq.items rest _ _ hm)
          · split at h
            · rcases hm : parseStringBody rest with _ | ⟨content, rs₂⟩
              · rw [hm] at h; cases h
              · rw [hm] at h
                injection h with h'
                injection h' with h₁ h₂
                subst h₂
                exact suffix_cons_lift _ (parseStringBody_suffix rest _ _ hm)
            · split at h
              · injection h with h'
                injection h' with h₁ h₂
                subst h₂
                exact List.drop_suffix _ _
              · split at h
                · injection h with h'
                  injection h' with h₁ h₂
                  subst h₂
                  exact List.drop_suffix _ _
                · split at h
                  · injection h with h'
                    injection h' with h₁ h₂
                    subst h₂
                    exact List.drop_suffix _ _
                  · split at h
                    · injection h with h'
                      injection h' with h₁ h₂
                      subst h₂
                      exact List.drop_suffix _ _
                    · split at h
                      · injection h with h'
                        injection h' with h₁ h₂
                        subst h₂
                        exact List.drop_suffix _ _
                      · split at h
                        · injection h with h'
                          injection h' with h₁ h₂
                          subst h₂
                          exact List.drop_suffix _ _
                        · rcases hm : parseNumber (c :: rest) with _ | ⟨v, rs₂⟩
                          · rw [hm] at h; cases h
                          · rw [hm] at h
                            injection h with h'
                            injection h' with h₁ h₂
                            subst h₂
                            exact parseNumber_suffix hm
    case members =>
      simp only [parseP] at h
      split at h
      · rename_i c rest hw
        split at h
        · injection h with h'
          injection h' with h₁ h₂
          subst h₂
          exact (List.suffix_cons c rest).trans (hw ▸ skipWs_suffix cs)
        · exact (ih PReq.pairs (c :: rest) _ _ h).trans (hw ▸ skipWs_suffix cs)
      · cases h
    case pairs =>
      rcases cs with _ | ⟨c, rest⟩
      · simp [parseP] at h
      · simp only [parseP] at h
        split at h
        · split at h
          · rename_i key r₁ hsb
            split at h
            · rename_i r₂ hw1
              split at h
              · rename_i v r₃ hv
                split at h
                · rename_i c₄ r₄ hw3
                  have hr₃ : r₃ <:+ rest := by
                    have h₁ : r₃ <:+ skipWs r₂ := ih PReq.val _ _ _ hv
                    have h₃ : r₂ <:+ skipWs r₁ := hw1 ▸ List.suffix_cons _ _
                    exact h₁.trans ((skipWs_suffix r₂).trans
                      (h₃.trans ((skipWs_suffix r₁).trans
                        (parseStringBody_suffix rest _ _ hsb))))
                  have hr₄ : r₄ <:+ rest := by
                    have h₁ : r₄ <:+ skipWs r₃ := hw3 ▸ List.suffix_cons _ _
                    exact h₁.trans ((skipWs_suffix r₃).trans hr₃)
                  split at h
                  · split at h
                    · rename_i l r₅ hp
                      injection h with h'
                      injection h' with h₁ h₂
                      subst h₂
                      exact suffix_cons_lift _
                        ((ih PReq.pairs _ _ _ hp).trans
                          ((skipWs_suffix r₄).trans hr₄))
                    · cases h
                  · split at h
                    · injection h with h'
                      injection h' with h₁ h₂
                      subst h₂
                      exact suffix_cons_lift _ hr₄
                    · cases h
                · cases h
              · cases h
            · cases h
          · cases h
        · cases h
    case items =>
      simp only [parseP] at h
      split at h
      · rename_i c rest hw
        split at h
        · injection h with h'
          injection h' with h₁ h₂
          subst h₂
          exact (List.suffix_cons c rest).trans (hw ▸ skipWs_suffix cs)
        · exact (ih PReq.elems (c :: rest) _ _ h).trans (hw ▸ skipWs_suffix cs)
      · cases h
    case elems =>
      simp only [parseP] at h
      split at h
      · rename_i v r₁ hv
        have hr₁ : r₁ <:+ cs := ih PReq.val _ _ _ hv
        split at h
        · rename_i r₂ hw
          split at h
          · rename_i l r₃ hp
            injection h with h'
            injection h' with h₁ h₂
            subst h₂
            have h₁ : r₂ <:+ r₁ := (hw ▸ List.suffix_cons ',' r₂).trans (skipWs_suffix r₁)
            exact (ih PReq.elems _ _ _ hp).trans
              ((skipWs_suffix r₂).trans (h₁.trans hr₁))
          · cases h
        · rename_i r₂ hw
          injection h with h'
          injection h' with h₁ h₂
          subst h₂
          exact ((hw ▸ List.suffix_cons ']' r₂).trans (skipWs_suffix r₁)).trans hr₁
        · cases h
      · cases h

/-- An object-body parse consumes up to and including a closing brace: the
remainder is preceded by `\x7d` inside the input. -/
theorem parseP_members_pairs_ends :
    ∀ f, (∀ cs l rs, parseP f PReq.members cs = some (PRes.kvs l, rs) →
            (rbrace :: rs) <:+ cs)
      ∧ (∀ cs l rs, parseP f PReq.pairs cs = some (PRes.kvs l, rs) →
            (rbrace :: rs) <:+ cs) := by
  intro f
  induction f with
  | zero => exact ⟨fun cs l rs h => by simp [parseP] at h,
      fun cs l rs h => by simp [parseP] at h⟩
  | succ f ih =>
    constructor
    · intro cs l rs h
      simp only [parseP] at h
      split at h
      · rename_i c rest hw
        split at h
        · rename_i hc
          injection h with h'
          injection h' with h₁ h₂
          subst h₂ hc
          exact hw ▸ skipWs_suffix cs
        · exact (ih.2 (c :: rest) _ _ h).trans (hw ▸ skipWs_suffix cs)
      · cases h
    · intro cs l rs h
      rcases cs with _ | ⟨c, rest⟩
      · simp [parseP] at h
      · simp only [parseP] at h
        split at h
        · split at h
          · rename_i key r₁ hsb
            split at h
            · rename_i r₂ hw1
              split at h
              · rename_i v r₃ hv
                split at h
                · rename_i c₄ r₄ hw3
                  have hr₃ : r₃ <:+ rest := by
                    have h₁ : r₃ <:+ skipWs r₂ := parseP_suffix f PReq.val _ _ _ hv
                    have h₃ : r₂ <:+ skipWs r₁ := hw1 ▸ List.suffix_cons _ _
                    exact h₁.trans ((skipWs_suffix r₂).trans
                      (h₃.trans ((skipWs_suffix r₁).trans
                        (parseStringBody_suffix rest _ _ hsb))))
                  split at h
                  · split at h
                    · rename_i l₂ r₅ hp
                      injection h with h'
                      injection h' with h₁ h₂
                      subst h₂
                      have hA := ih.2 _ _ _ hp
                      have hB : r₄ <:+ r₃ :=
                        (hw3 ▸ List.suffix_cons _ _).trans (skipWs_suffix r₃)
                      exact suffix_cons_lift _
                        (hA.trans ((skipWs_suffix r₄).trans (hB.trans hr₃)))
                    · cases h
                  · split at h
                    · rename_i hc₄
                      injection h with h'
                      injection h' with h₁ h₂
                      subst h₂ hc₄
                      exact suffix_cons_lift _
                        ((hw3 ▸ skipWs_suffix r₃).trans hr₃)
                    · cases h
                · cases h
              · cases h
            · cases h
          · cases h
        · cases h

/-- A value parse that yields an object starts at an opening brace, with
the object body parsed by a `members` request one fuel level down. -/
theorem parseP_val_obj_head {f : Nat} {cs : List Char} {o} {rs : List Char}
    (h : parseP f PReq.val cs = some (PRes.v (JValue.obj o), rs)) :
    ∃ f₂ rest, f = f₂ + 1 ∧ cs = lbrace :: rest
      ∧ parseP f₂ PReq.members rest = some (PRes.kvs o, rs) := by
  cases f with
  | zero => simp [parseP] at h
  | succ f =>
    cases cs with
    | nil => simp [parseP] at h
    | cons c rest =>
      simp only [parseP] at h
      split at h
      · rename_i hc
        split at h
        · rename_i kvs rs₂ hm
          injection h with h'
          injection h' with h₁ h₂
          injection h₁ with h₃
          injection h₃ with h₄
          subst h₄ h₂ hc
          exact ⟨f, rest, rfl, rfl, hm⟩
        · cases h
      · split at h
        · split at h
          · rename_i vs rs₂ hm
            injection h with h'
            injection h' with h₁ h₂
            injection h₁ with h₃
            cases h₃
          · cases h
        · split at h
          · split at h
            · rename_i content rs₂ hm
              injection h with h'
              injection h' with h₁ h₂
              injection h₁ with h₃
              cases h₃
            · cases h
          · split at h
            · injection h with h'
              injection h' with h₁ h₂
              injection h₁ with h₃
              cases h₃
            · split at h
              · injection h with h'
                injection h' with h₁ h₂
                injection h₁ with h₃
                cases h₃
              · split at h
                · injection h with h'
                  injection h' with h₁ h₂
                  injection h₁ with h₃
                  cases h₃
                · split at h
                  · injection h with h'
                    injection h' with h₁ h₂
                    injection h₁ with h₃
                    cases h₃
                  · split at h
                    · injection h with h'
                      injection h' with h₁ h₂
                      injection h₁ with h₃
                      cases h₃
                    · split at h
                      · injection h with h'
                        injection h' with h₁ h₂
                        injection h₁ with h₃
                        cases h₃
                      · split at h
                        · rename_i v rs₂ hn
                          injection h with h'
                          injection h' with h₁ h₂
                          injection h₁ with h₃
                          rcases parseNumber_shape hn with ⟨raw, rfl⟩
                          cases h₃
                        · cases h

/-- A value parse starting at an opening brace can only yield an object. -/
theorem parseP_val_lbrace_shape {f : Nat} {rest : List Char} {v} {rs : List Char}
    (h : parseP f PReq.val (lbrace :: rest) = some (PRes.v v, rs)) :
    ∃ kvs, v = JValue.obj kvs := by
  cases f with
  | zero => simp [parseP] at h
  | succ f =>
    simp only [parseP] at h
    rw [if_pos trivial] at h
    split at h
    · rename_i kvs rs₂ hm
      injection h with h'
      injection h' with h₁ h₂
      injection h₁ with h₃
      exact ⟨kvs, h₃.symm⟩
    · cases h

/-- An exact parse yielding an object means the text is an opening brace,
a body, and a final closing brace. -/
theorem parseExact_obj_decomp {cs : List Char} {o}
    (h : parseExact cs = some (JValue.obj o)) :
    ∃ mid, cs = lbrace :: mid ++ [rbrace] := by
  rw [parseExact] at h
  split at h
  · rename_i v rs hp
    injection h with h'
    subst h'
    rcases parseP_val_obj_head hp with ⟨f₂, rest, _, hcs, hm⟩
    rcases (parseP_members_pairs_ends f₂).1 rest o [] hm with ⟨mid, hmid⟩
    exact ⟨mid, by rw [hcs, ← hmid]; rfl⟩
  · cases h

/-- Dropping while `p` holds skips a block that satisfies `p` wholesale. -/
theorem dropWhile_append_all {p : Char → Bool} {a : List Char} (l : List Char)
    (ha : ∀ c ∈ a, p c = true) : (a ++ l).dropWhile p = l.dropWhile p := by
  induction a with
  | nil => rfl
  | cons x a ih =>
    rw [List.cons_append, List.dropWhile_cons, if_pos (ha x (List.mem_cons_self x a))]
    exact ih fun c hc => ha c (List.mem_cons_of_mem x hc)

/-- Dropping while `p` holds stops at a head that fails `p`. -/
theorem dropWhile_cons_false {p : Char → Bool} {x : Char} (l : List Char)
    (hx : p x = false) : (x :: l).dropWhile p = x :: l := by
  rw [List.dropWhile_cons, if_neg (by simp [hx])]

/-- Stripping both ends removes exactly the surrounding `p`-blocks around a
segment whose first and last characters fail `p`. -/
theorem stripBoth_sandwich {p : Char → Bool} {a b m : List Char} {x y : Char}
    (ha : ∀ c ∈ a, p c = true) (hb : ∀ c ∈ b, p c = true)
    (hx : p x = false) (hy : p y = false) :
    stripBoth p (a ++ (x :: m ++ [y]) ++ b) = x :: m ++ [y] := by
  unfold stripBoth
  rw [List.append_assoc, dropWhile_append_all _ ha]
  have h₁ : ((x :: m ++ [y]) ++ b) = x :: (m ++ [y] ++ b) := by simp
  rw [h₁, dropWhile_cons_false _ hx]
  have h₂ : (x :: (m ++ [y] ++ b)).reverse = b.reverse ++ (y :: (m.reverse ++ [x])) := by
    simp
  rw [h₂, dropWhile_append_all _ (fun c hc => hb c (List.mem_reverse.mp hc)),
    dropWhile_cons_false _ hy]
  simp

/-- Every char list splits as a `p`-prefix, its both-ends strip, and a
`p`-suffix. -/
theorem stripBoth_decomp (p : Char → Bool) (l : List Char) :
    ∃ w₁ w₂, l = w₁ ++ stripBoth p l ++ w₂
      ∧ (∀ c ∈ w₁, p c = true) ∧ (∀ c ∈ w₂, p c = true) := by
  refine ⟨l.takeWhile p, ((l.dropWhile p).reverse.takeWhile p).reverse, ?_,
    fun c hc => List.mem_takeWhile_imp hc,
    fun c hc => List.mem_takeWhile_imp (List.mem_reverse.mp hc)⟩
  have h₁ : l.dropWhile p
      = stripBoth p l ++ ((l.dropWhile p).reverse.takeWhile p).reverse := by
    unfold stripBoth
    conv_lhs => rw [← List.reverse_reverse (l.dropWhile p)]
    conv_lhs =>
      rw [← List.takeWhile_append_dropWhile p (l.dropWhile p).reverse]
    rw [List.reverse_append]
  conv_lhs => rw [← List.takeWhile_append_dropWhile p l, h₁]
  rw [List.append_assoc]

/-- The head left by `dropWhile` fails the predicate. -/
theorem dropWhile_eq_cons_head {p : Char → Bool} {l : List Char} {c : Char}
    {r : List Char} (h : l.dropWhile p = c :: r) : p c = false := by
  induction l with
  | nil => simp at h
  | cons a l ih =>
    rw [List.dropWhile_cons] at h
    split at h
    · exact ih h
    · rename_i ha
      injection h with h₁ h₂
      subst h₁
      simpa using ha

/-- A successful brace-span match starts with the opening brace and ends
with the closing brace. -/
theorem braceSpan_shape {cs sp : List Char} (h : braceSpan cs = some sp) :
    (∃ r, sp = lbrace :: r) ∧ ∃ m, sp = m ++ [rbrace] := by
  unfold braceSpan at h
  dsimp only at h
  generalize hrest : cs.dropWhile (fun c => c ≠ lbrace) = rest at h
  generalize hsp : (rest.reverse.dropWhile (fun c => c ≠ rbrace)).reverse = sp₀ at h
  split at h
  · cases h
  · rename_i hne
    injection h with h'
    subst h'
    constructor
    · have hsuf : sp₀.reverse <:+ rest.reverse := by
        rw [← hsp, List.reverse_reverse]
        exact List.dropWhile_suffix _
      have hpre : sp₀ <+: rest := List.reverse_suffix.mp hsuf
      rcases hsp0 : sp₀ with _ | ⟨a, s⟩
      · rw [hsp0] at hne; simp at hne
      · rw [hsp0] at hpre
        rcases hpre with ⟨t, ht⟩
        have hrw : cs.dropWhile (fun c => c ≠ lbrace) = a :: (s ++ t) := by
          rw [hrest, ← ht]
          rfl
        have hhd := dropWhile_eq_cons_head hrw
      -- the head of `rest` fails the not-a-brace test, so it is the brace
        have ha : a = lbrace := by simpa using hhd
        exact ⟨s, by rw [ha]⟩
    · rcases hq : rest.reverse.dropWhile (fun c => c ≠ rbrace) with _ | ⟨d, t⟩
      · rw [hq] at hsp
        rw [← hsp] at hne
        simp at hne
      · have hdf : (fun c => decide (c ≠ rbrace)) d = false := dropWhile_eq_cons_head hq
        have hd' : d = rbrace := by simpa using hdf
        rw [hq] at hsp
        exact ⟨t.reverse, by rw [← hsp, hd']; simp⟩

/-- The brace span of a brace-delimited text is the whole text. -/
theorem braceSpan_core (m : List Char) :
    braceSpan (lbrace :: m ++ [rbrace]) = some (lbrace :: m ++ [rbrace]) := by
  unfold braceSpan
  dsimp only
  have h1 : (lbrace :: m ++ [rbrace]).dropWhile (fun c => c ≠ lbrace)
      = lbrace :: m ++ [rbrace] := dropWhile_cons_false _ (by simp)
  have h2 : (lbrace :: m ++ [rbrace]).reverse = rbrace :: (lbrace :: m).reverse := by
    simp
  rw [h1, h2, dropWhile_cons_false _ (by simp)]
  simp

/-- JSON whitespace is Python-strip whitespace. -/
theorem jws_imp_pws {c : Char} (h : jws c = true) : pws c = true := by
  simp only [jws, Bool.or_eq_true, decide_eq_true_eq] at h
  simp only [pws, Bool.or_eq_true, decide_eq_true_eq]
  tauto

/-- A strict object parse decomposes the input string into JSON whitespace
around a brace-delimited core that parses exactly. -/
theorem json_loads_obj_decomp {j : String} {o}
    (h : json_loads j = some (JValue.obj o)) :
    ∃ w₁ mid w₂, j.data = w₁ ++ (lbrace :: mid ++ [rbrace]) ++ w₂
      ∧ (∀ c ∈ w₁, jws c = true) ∧ (∀ c ∈ w₂, jws c = true)
      ∧ parseExact (lbrace :: mid ++ [rbrace]) = some (JValue.obj o) := by
  rw [json_loads] at h
  rcases parseExact_obj_decomp h with ⟨mid, hmid⟩
  rcases stripBoth_decomp jws j.data with ⟨w₁, w₂, hdec, hw₁, hw₂⟩
  rw [jstrip] at hmid h
  rw [hmid] at hdec h
  exact ⟨w₁, mid, w₂, hdec, hw₁, hw₂, h⟩

/-- Dropping one leading character cannot remove a backtick triple. -/
theorem hasTriple_cons_false {c : Char} {l : List Char}
    (h : hasTriple (c :: l) = false) : hasTriple l = false := by
  match l with
  | [] => rfl
  | [a] => rfl
  | a :: b :: rest =>
    rw [hasTriple] at h
    exact (Bool.or_eq_false_iff.mp h).2

/-- A non-backtick head is irrelevant to the backtick-triple test. -/
theorem hasTriple_cons_ne {c : Char} {l : List Char} (hc : c ≠ tk) :
    hasTriple (c :: l) = hasTriple l := by
  match l with
  | [] => rfl
  | [a] => rfl
  | a :: b :: rest =>
    rw [hasTriple]
    simp [hc]

/-- Appending a newline and two backticks to a triple-free text keeps it
triple-free. -/
theorem hasTriple_append_close :
    ∀ l : List Char, hasTriple l = false → hasTriple (l ++ ['\n', tk, tk]) = false
  | [], _ => by decide
  | [a], h => by
    have h₁ : hasTriple ['\n', tk, tk] = false := by decide
    show hasTriple (a :: '\n' :: tk :: tk :: []) = false
    rw [hasTriple, h₁]
    simp [show ('\n' : Char) ≠ tk by decide]
  | [a, b], h => by
    have h₁ : hasTriple ['\n', tk, tk] = false := by decide
    show hasTriple (a :: b :: '\n' :: tk :: tk :: []) = false
    rw [hasTriple, hasTriple, h₁]
    simp [show ('\n' : Char) ≠ tk by decide]
  | a :: b :: c :: rest, h => by
    rw [hasTriple] at h
    rcases Bool.or_eq_false_iff.mp h with ⟨h₁, h₂⟩
    show hasTriple (a :: b :: c :: (rest ++ ['\n', tk, tk])) = false
    rw [hasTriple, h₁]
    have := hasTriple_append_close (b :: c :: rest) h₂
    simpa using this

/-- `findClose` splits a triple-free block at the first backtick triple. -/
theorem findClose_emit :
    ∀ (mid tail : List Char), hasTriple (mid ++ [tk, tk]) = false →
      findClose (mid ++ tk :: tk :: tk :: tail) = some (mid, tail) := by
  intro mid
  induction mid with
  | nil =>
    intro tail h
    rw [List.nil_append, findClose]
    simp [tick3]
  | cons c mid ih =>
    intro tail h
    have hmid : hasTriple (mid ++ [tk, tk]) = false := by
      apply hasTriple_cons_false
      simpa using h
    have hcond : ((c :: mid) ++ tk :: tk :: tk :: tail).take 3 ≠ tick3 := by
      rcases mid with _ | ⟨d, mid₂⟩
      · have h₀ : hasTriple ([c] ++ [tk, tk]) = false := h
        rw [show ([c] ++ [tk, tk]) = [c, tk, tk] from rfl, hasTriple] at h₀
        simp at h₀
        simp [tick3, List.take]
        intro hct
        exact absurd hct h₀.1
      · rcases mid₂ with _ | ⟨e, mid₃⟩
        · have h₀ : hasTriple ([c, d] ++ [tk, tk]) = false := h
          rw [show ([c, d] ++ [tk, tk]) = [c, d, tk, tk] from rfl,
            hasTriple, hasTriple] at h₀
          simp at h₀
          simp [tick3, List.take]
          intro _ hdt
          exact absurd hdt h₀.2.1
        · have h₀ : hasTriple ((c :: d :: e :: mid₃) ++ [tk, tk]) = false := h
          rw [show ((c :: d :: e :: mid₃) ++ [tk, tk])
              = c :: d :: e :: (mid₃ ++ [tk, tk]) from by simp, hasTriple] at h₀
          rcases Bool.or_eq_false_iff.mp h₀ with ⟨h₁, _⟩
          simp at h₁
          simp [tick3, List.take]
          exact h₁
    rw [List.cons_append, findClose]
    rw [if_neg (by simpa using hcond)]
    rw [ih tail hmid]

/-- On a fenced, triple-free payload, the fence regex extracts exactly the
newline-wrapped payload. -/
theorem fenceSearch_wrap {j : String} (h : hasTriple j.data = false) :
    fenceSearch (wrapFence j).data = some ('\n' :: j.data ++ ['\n']) := by
  have hdata : (wrapFence j).data
      = tk :: tk :: tk :: 'j' :: 's' :: 'o' :: 'n' :: '\n' ::
          (j.data ++ '\n' :: tk :: tk :: tk :: []) := by
    show ("```json\n" ++ j ++ "\n```").data = _
    rw [String.data_append, String.data_append]
    rfl
  rw [hdata, fenceSearch]
  rw [if_pos (by simp [fenceTag, tick3, List.isPrefixOf])]
  have hdrop : (tk :: tk :: tk :: 'j' :: 's' :: 'o' :: 'n' :: '\n' ::
      (j.data ++ '\n' :: tk :: tk :: tk :: [])).drop 7
      = ('\n' :: j.data ++ ['\n']) ++ tk :: tk :: tk :: [] := by
    simp
  rw [hdrop, findClose_emit ('\n' :: j.data ++ ['\n']) []
    (by
      have h₂ : hasTriple (j.data ++ ['\n', tk, tk]) = false :=
        hasTriple_append_close j.data h
      have h₃ : ('\n' :: j.data ++ ['\n']) ++ [tk, tk]
          = '\n' :: (j.data ++ ['\n', tk, tk]) := by simp
      rw [h₃, hasTriple_cons_ne (by decide), h₂])]

/-- An exact parse of a text opening with a brace can only yield an
object. -/
theorem parseExact_lbrace_shape {rest : List Char} {v : JValue}
    (h : parseExact (lbrace :: rest) = some v) : ∃ kvs, v = JValue.obj kvs := by
  rw [parseExact] at h
  split at h
  · rename_i v₂ rs hp
    injection h with h'
    subst h'
    exact parseP_val_lbrace_shape hp
  · cases h

/-- A char list that both starts with the opening brace and ends with the
closing brace has the canonical sandwich form. -/
theorem lbrace_rbrace_form {sp : List Char} {r m : List Char}
    (hr : sp = lbrace :: r) (hm : sp = m ++ [rbrace]) :
    ∃ mid, sp = lbrace :: mid ++ [rbrace] := by
  rcases m with _ | ⟨a, m'⟩
  · rw [hm] at hr
    injection hr with h₁ h₂
    exact absurd h₁ (by decide)
  · rw [hm] at hr
    injection hr with h₁ h₂
    exact ⟨m', by rw [hm, ← h₁]⟩

/-- Stripping JSON whitespace from a brace-delimited text changes
nothing. -/
theorem jstrip_core (mid : List Char) :
    jstrip (lbrace :: mid ++ [rbrace]) = lbrace :: mid ++ [rbrace] := by
  have h0 : ∀ c ∈ ([] : List Char), jws c = true := by simp
  have h := @stripBoth_sandwich jws [] [] mid lbrace rbrace h0 h0
    (by decide) (by decide)
  rw [jstrip]
  simpa using h

/-- C2 counterexample: on the input `123` the extractor returns the parsed
number, which is not a mapping of any kind — the function's contract of
returning a dictionary is not kept when the input has no braces. -/
theorem c2_counterexample :
    parse_json_safely "123" = JValue.num "123"
      ∧ ∀ kvs, JValue.num "123" ≠ JValue.obj kvs :=
  ⟨rfl, fun _ h => JValue.noConfusion h⟩

/-- C2 (amended): the extractor never raises (it is total) and returns
either the canonical empty mapping or the strict parse of the heuristically
extracted span; whenever the brace-span heuristic fired the result is a
mapping, but when the input contains no brace span the parsed value may be
a non-mapping JSON value, contrary to the original claim. -/
theorem c2_amended (s : String) :
    (braceFired s = true → ∃ kvs, parse_json_safely s = JValue.obj kvs)
      ∧ (parse_json_safely s = JValue.obj []
          ∨ ∃ v, json_loads (String.mk (extractCandidate s)) = some v
              ∧ parse_json_safely s = v) := by
  constructor
  · intro hb
    by_cases hs : s = ""
    · rw [hs] at hb
      exact absurd hb (by decide)
    · rw [braceFired] at hb
      rcases hbs : braceSpan (fenceNarrowed s) with _ | ⟨sp⟩
      · rw [hbs] at hb
        simp at hb
      · have hcand : extractCandidate s = sp := by
          rw [extractCandidate, hbs]
        rcases braceSpan_shape hbs with ⟨⟨r, hr⟩, ⟨m, hm⟩⟩
        rcases lbrace_rbrace_form hr hm with ⟨mid, hsp⟩
        rw [parse_json_safely, if_neg hs, hcand]
        rcases hjl : json_loads (String.mk sp) with _ | ⟨v⟩
        · exact ⟨[], rfl⟩
        · have hv : ∃ kvs, v = JValue.obj kvs := by
            rw [json_loads] at hjl
            have hdata : (String.mk sp).data = sp := rfl
            rw [hdata, hsp, jstrip_core] at hjl
            exact parseExact_lbrace_shape hjl
          rcases hv with ⟨kvs, rfl⟩
          exact ⟨kvs, rfl⟩
  · by_cases hs : s = ""
    · left
      rw [hs]
      rfl
    · rw [parse_json_safely, if_neg hs]
      rcases hjl : json_loads (String.mk (extractCandidate s)) with _ | ⟨v⟩
      · left
        rfl
      · right
        exact ⟨v, rfl, rfl⟩

/-- C2 witness: on a prose-wrapped object the heuristic fires and the
result is a mapping. -/
theorem c2_witness :
    ∃ kvs, parse_json_safely ("x " ++ lbS ++ "\"a\":1" ++ rbS ++ " y")
      = JValue.obj kvs :=
  (c2_amended ("x " ++ lbS ++ "\"a\":1" ++ rbS ++ " y")).1 (by decide)

/-- C3 counterexample: a well-formed JSON object whose string value
contains three backticks breaks the fencing round trip — the lazy fence
regex cuts the interior at the inner backticks, the remnant no longer
parses, and the extractor returns the empty mapping instead of the parsed
object. -/
theorem c3_counterexample :
    json_loads (lbS ++ "\"a\":\"```\"" ++ rbS)
        = some (JValue.obj [("a", JValue.str "```")])
      ∧ parse_json_safely (wrapFence (lbS ++ "\"a\":\"```\"" ++ rbS)) = JValue.obj []
      ∧ JValue.obj ([] : List (String × JValue))
          ≠ JValue.obj [("a", JValue.str "```")] := by
  refine ⟨rfl, rfl, ?_⟩
  intro h
  injection h with h'
  cases h'

/-- C3 (amended): for every well-formed JSON object text containing no
triple-backtick sequence, extraction from the `json`-fenced wrapping
returns exactly the strict parse of the text (round trip through fencing);
extraction from a string with no JSON returns the empty mapping; and
extraction from a valid object surrounded by prose returns the parsed
object. -/
theorem c3_amended :
    (∀ (j : String) (o : List (String × JValue)),
        json_loads j = some (JValue.obj o) →
        hasTriple j.data = false →
        parse_json_safely (wrapFence j) = JValue.obj o)
      ∧ parse_json_safely "not json at all" = JValue.obj []
      ∧ parse_json_safely ("prefix " ++ lbS ++ "\"a\":1" ++ rbS ++ " suffix")
          = JValue.obj [("a", JValue.num "1")] := by
  refine ⟨?_, rfl, rfl⟩
  intro j o hj ht
  rcases json_loads_obj_decomp hj with ⟨w₁, mid, w₂, hdec, hw₁, hw₂, hex⟩
  have hne : wrapFence j ≠ "" := by
    intro habs
    have hd := congrArg String.data habs
    rw [wrapFence, String.data_append, String.data_append] at hd
    simp at hd
  have hnarrow : fenceNarrowed (wrapFence j) = lbrace :: mid ++ [rbrace] := by
    rw [fenceNarrowed, fenceSearch_wrap ht]
    show pyStrip ('\n' :: j.data ++ ['\n']) = lbrace :: mid ++ [rbrace]
    rw [pyStrip, hdec]
    have hsplit : ('\n' :: (w₁ ++ (lbrace :: mid ++ [rbrace]) ++ w₂)) ++ ['\n']
        = ('\n' :: w₁) ++ (lbrace :: mid ++ [rbrace]) ++ (w₂ ++ ['\n']) := by
      simp
    rw [show ('\n' :: (w₁ ++ (lbrace :: mid ++ [rbrace]) ++ w₂) ++ ['\n'])
        = ('\n' :: w₁) ++ (lbrace :: mid ++ [rbrace]) ++ (w₂ ++ ['\n']) from by simp]
    apply stripBoth_sandwich
    · intro c hc
      rcases List.mem_cons.mp hc with rfl | hc
      · decide
      · exact jws_imp_pws (hw₁ c hc)
    · intro c hc
      rcases List.mem_append.mp hc with hc | hc
      · exact jws_imp_pws (hw₂ c hc)
      · rcases List.mem_singleton.mp hc with rfl
        decide
    · decide
    · decide
  have hcand : extractCandidate (wrapFence j) = lbrace :: mid ++ [rbrace] := by
    rw [extractCandidate, hnarrow, braceSpan_core]
  have hjl : json_loads (String.mk (lbrace :: mid ++ [rbrace]))
      = some (JValue.obj o) := by
    rw [json_loads]
    show parseExact (jstrip (lbrace :: mid ++ [rbrace])) = _
    rw [jstrip_core]
    exact hex
  rw [parse_json_safely, if_neg hne, hcand, hjl]

/-- C3 witness: the round trip evaluated on a concrete fenced object. -/
theorem c3_witness :
    parse_json_safely (wrapFence (lbS ++ "\"a\":1" ++ rbS))
      = JValue.obj [("a", JValue.num "1")] :=
  c3_amended.1 (lbS ++ "\"a\":1" ++ rbS) [("a", JValue.num "1")] rfl (by decide)

/-- C8 counterexample: a stream that raises before yielding any fragment
returns exactly the same value to its caller as a stream that successfully
produced empty text, so the return value carries no failure marker and the
caller cannot distinguish the two cases. -/
theorem c8_counterexample :
    (stream_generate_text [] true "boom").ret = ""
      ∧ (stream_generate_text [] false "anything").ret = ""
      ∧ (stream_generate_text [] true "boom").ret
          = (stream_generate_text [] false "anything").ret :=
  ⟨rfl, rfl, rfl⟩

/-- C8 (amended): the sink concatenates fragment texts in arrival order
and returns the accumulation, preserved also when the source raises
mid-stream; the failure is surfaced only on the display placeholders
(whose final title differs between the error and success cases), while the
returned value itself carries no failure marker. -/
theorem c8_amended (chunks : List (Option String)) (fails : Bool) (e : String) :
    (stream_generate_text chunks fails e).ret = concatTexts chunks
      ∧ (stream_generate_text chunks true e).title
          ≠ (stream_generate_text chunks false e).title := by
  constructor
  · cases fails <;> simpa [stream_generate_text] using accumulate_eq chunks
  · have hne : streamErrTitle ≠ streamOkTitle := by decide
    simpa [stream_generate_text] using hne

/-- C4 counterexample: a relationship whose source is the whitespace-only
string keeps both a node and an edge in the built graph, with the
endpoint stored untrimmed. -/
theorem c4_counterexample :
    buildGraph [⟨some " ", some "B", some "r"⟩] = ⟨[" ", "B"], [(" ", "B", "r")]⟩
      ∧ " " ∈ (buildGraph [⟨some " ", some "B", some "r"⟩]).nodes :=
  ⟨rfl, by decide⟩

/-- C4 (amended): the graph builder excludes exactly the relationships with
an empty-string or absent source or target — the truthiness test of
app.py:246 — and performs no trimming, so whitespace-only endpoints are
kept verbatim. -/
theorem c4_amended (rels : List Rel) :
    buildGraph rels
      = buildGraph (rels.filter (fun r => truthyS r.source && truthyS r.target)) :=
  buildGraph_loop_filter rels ⟨[], []⟩

/-- C6 counterexample: a non-empty relationship list whose entries are all
invalid builds an empty node set, yet the early "nothing to render" return
is not taken and the layout is still invoked (here on the empty graph). -/
theorem c6_counterexample :
    plot_ontology_3d trivLayout ⟨none, none, some [⟨some "", some "B", some ""⟩]⟩ "t"
        = PlotOutcome.render ⟨[], []⟩ []
      ∧ plot_ontology_3d trivLayout ⟨none, none, some [⟨some "", some "B", some ""⟩]⟩ "t"
          ≠ PlotOutcome.noRender
      ∧ (buildGraph [⟨some "", some "B", some ""⟩]).nodes = [] :=
  ⟨rfl, by decide, rfl⟩

/-- C6 (amended): the "nothing to render" early return fires exactly when
the relationship list itself is empty (or the key absent); with a
non-empty list the layout is always attempted, even when every entry is
invalid and the built node set is empty. -/
theorem c6_amended :
    (∀ (α : Type)
        (L : List String → List (String × String) → Nat → List (String × α))
        (ont : Ontology) (t : String),
        plot_ontology_3d L ont t = PlotOutcome.noRender
          ↔ (ont.relationships.getD []).isEmpty = true)
      ∧ plot_ontology_3d trivLayout
            ⟨none, none, some [⟨some " ", none, some "x"⟩, ⟨none, some "B", none⟩]⟩ "t"
          = PlotOutcome.render ⟨[], []⟩ [] := by
  refine ⟨fun α L ont t => ?_, rfl⟩
  simp only [plot_ontology_3d]
  by_cases h : (ont.relationships.getD []).isEmpty = true
  · simp [h]
  · simp [h]

/-- C7: the layout output depends only on the built graph and the fixed
seed 42 the call site passes: any two relationship lists building the same
graph (identical nodes, edges and insertion order) render with identical
per-node coordinates, for every layout function — in particular calling
the plot twice on the same topology yields identical coordinates. -/
theorem c7_theorem (α : Type)
    (L : List String → List (String × String) → Nat → List (String × α))
    (rels₁ rels₂ : List Rel) (t₁ t₂ : String)
    (hg : buildGraph rels₁ = buildGraph rels₂)
    (h₁ : rels₁ ≠ []) (h₂ : rels₂ ≠ []) :
    plot_ontology_3d L ⟨none, none, some rels₁⟩ t₁
      = plot_ontology_3d L ⟨none, none, some rels₂⟩ t₂ := by
  simp only [plot_ontology_3d, Option.getD_some]
  rw [if_neg (by simpa using h₁), if_neg (by simpa using h₂), hg]

/-- C7 witness: two different relationship lists (an extra duplicate with a
different label) build the identical graph, and the rendered outputs
coincide. -/
theorem c7_witness :
    plot_ontology_3d trivLayout ⟨none, none, some [⟨some "A", some "B", some "r1"⟩]⟩ "a"
      = plot_ontology_3d trivLayout
          ⟨none, none,
            some [⟨some "A", some "B", some "r2"⟩, ⟨some "A", some "B", some "r1"⟩]⟩ "b" :=
  c7_theorem Int trivLayout
    [⟨some "A", some "B", some "r1"⟩]
    [⟨some "A", some "B", some "r2"⟩, ⟨some "A", some "B", some "r1"⟩]
    "a" "b" (by decide) (by decide) (by decide)

end App
